import Mathlib

/-!
# Verification of the candidate-bookkeeping core of `nabo-rs`

Shallow embedding of `src/heap.rs` and `src/internal_parameters.rs`.

Modelling conventions:

* The scalar type `NotNan<T>` (a non-NaN, finite-or-infinite float) is
  modelled by an arbitrary linear order `α` with a top element `⊤`
  standing for positive infinity, exactly the structure the source uses:
  it only compares distances and uses `T::infinity()` as a sentinel.
* `Vec<InternalNeighbour<T>>` is modelled as `List (InternalNeighbour α)`;
  `Vec::push` appends at the end.
* `u32` point indices are modelled as `Nat` (the code never computes with
  them, it only stores and returns them).
* Rust panics (index out of bounds, `unwrap` on `None`, `debug_assert!`)
  are modelled by `Option`-returning variants (`none` = panic).  The total
  functions used in the main theorems agree with the `Option` variants on
  all non-panicking inputs, which is proved where it matters.
* `BinaryHeap<InternalNeighbour<T>>` is modelled at two levels.  The
  faithful model is the relation `HeapAddR`/`HeapRunR`: below capacity
  the new element is pushed, at capacity an element carrying the maximum
  distance is evicted when the new distance is strictly smaller — which
  element among Ord-equal maxima, and in which internal order the
  elements sit, is standard-library internals the program does not pin
  down, so the relation quantifies over every such choice.  The
  executable structure `BHeap` (element list kept sorted ascending by
  distance, maximum last) is one deterministic refinement of that
  relation (`bheap_addAll_refines`), used for concrete evaluation; the
  only theorems stated directly about it are insensitive to the eviction
  choice among equal distances.  The element ordering of
  `InternalNeighbour` lives in `internal_neighbour.rs`, which is not
  part of the given sources; following the spec (section 3: ordering is
  total, primary key `squared_distance` ascending, never considering the
  identifier) it is modelled as comparison of the `dist2` fields only.
-/

namespace Nabo

/-- `InternalNeighbour<T>` from `internal_neighbour.rs` (declaration only;
modelled from the spec, section 3): an internal point identifier paired
with a squared distance. -/
structure InternalNeighbour (α : Type) where
  index : Nat
  dist2 : α
deriving DecidableEq

variable {α : Type} [LinearOrder α] [OrderTop α]

/-- Insert `x` into a list just before the first element whose key
`κ`-strictly exceeds `κ x` (so among equal keys the new element lands
last).  This is the ordered-insertion step shared by the sorted-array
collector's tail shift and the heap model. -/
def insk {β : Type} (κ : β → α) (x : β) : List β → List β
  | [] => [x]
  | y :: ys => if κ x < κ y then x :: y :: ys else y :: insk κ x ys

/-- Stable insertion sort by the key `κ`: elements are inserted left to
right, each one after all earlier elements with an equal key
(first-seen-wins order among ties). -/
def sortk {β : Type} (κ : β → α) (l : List β) : List β :=
  l.foldl (fun acc x => insk κ x acc) []

namespace VecCollector

/-- `<Vec<InternalNeighbour<T>> as CandidateCollector>::furthest_dist2`
(heap.rs:164-166): `self[self.len() - 1].dist2`.  On the empty vector the
source panics; see `furthest_dist2?`. -/
def furthest_dist2 (v : List (InternalNeighbour α)) : α :=
  (v.getLastD ⟨0, ⊤⟩).dist2

/-- Panic-aware variant of `furthest_dist2`: `none` models the
out-of-bounds panic of `self[self.len() - 1]` on an empty vector. -/
def furthest_dist2? (v : List (InternalNeighbour α)) : Option α :=
  v.getLast?.map InternalNeighbour.dist2

/-- `<Vec<InternalNeighbour<T>> as CandidateCollector>::add`
(heap.rs:148-163).  If `dist2 > self.furthest_dist2()` the observation is
rejected; otherwise the tail loop shifts every entry whose distance
strictly exceeds `dist2` one slot towards the tail (dropping the old last
entry) and writes the new entry in the slot it frees — i.e. it inserts
`⟨index, dist2⟩` into the sorted prefix `dropLast`, after all entries
with distance `≤ dist2`.  On the empty vector the source panics; the
`[]` branch here is junk, see `add?`. -/
def add (v : List (InternalNeighbour α)) (dist2 : α) (index : Nat) :
    List (InternalNeighbour α) :=
  match v with
  | [] => []
  | _ :: _ =>
    if furthest_dist2 v < dist2 then v
    else insk InternalNeighbour.dist2 ⟨index, dist2⟩ v.dropLast

/-- Panic-aware variant of `add`: `none` models the panic of
`self.len() - 1` indexing on an empty vector. -/
def add? (v : List (InternalNeighbour α)) (dist2 : α) (index : Nat) :
    Option (List (InternalNeighbour α)) :=
  match v with
  | [] => none
  | _ :: _ => some (add v dist2 index)

/-- `<Vec<InternalNeighbour<T>> as CandidateHeap>::new_with_k`
(heap.rs:170-178): `k` slots, all `⟨0, ∞⟩`. -/
def new_with_k (k : Nat) : List (InternalNeighbour α) :=
  List.replicate k ⟨0, ⊤⟩

/-- Fold a sequence of `(dist2, index)` observations through `add`,
modelling the traversal's repeated calls. -/
def addAll (v : List (InternalNeighbour α)) (obs : List (α × Nat)) :
    List (InternalNeighbour α) :=
  obs.foldl (fun s o => add s o.1 o.2) v

end VecCollector

/-- `keep_finite_elements` (heap.rs:135-145): find the position of the
first entry with infinite distance and truncate there. -/
def keep_finite_elements (v : List (InternalNeighbour α)) :
    List (InternalNeighbour α) :=
  match v.findIdx? (fun n => n.dist2 = ⊤) with
  | none => v
  | some pos => v.take pos

namespace VecCollector

/-- `<Vec<InternalNeighbour<T>> as CandidateHeap>::into_vec`
(heap.rs:179-181). -/
def into_vec (v : List (InternalNeighbour α)) : List (InternalNeighbour α) :=
  keep_finite_elements v

/-- `<Vec<InternalNeighbour<T>> as CandidateHeap>::into_sorted_vec`
(heap.rs:182-184). -/
def into_sorted_vec (v : List (InternalNeighbour α)) :
    List (InternalNeighbour α) :=
  keep_finite_elements v

end VecCollector

/-- Executable model of `BinaryHeap<InternalNeighbour<T>>`: the element
list kept sorted ascending by `dist2` (heap maximum last), together
with its capacity `k` (the source reads the capacity requested in
`new_with_k` back through `self.capacity()`).  This is one
deterministic refinement of the faithful nondeterministic model
`HeapAddR` below, see `bheap_addAll_refines`. -/
structure BHeap (α : Type) where
  k : Nat
  elems : List (InternalNeighbour α)
deriving DecidableEq

namespace BHeap

/-- `<BinaryHeap<InternalNeighbour<T>> as CandidateHeap>::new_with_k`
(heap.rs:124-126): an empty heap with capacity `k`. -/
def new_with_k (k : Nat) : BHeap α := ⟨k, []⟩

/-- `<BinaryHeap<InternalNeighbour<T>> as CandidateCollector>::add`
(heap.rs:102-112), executable refinement.  Below capacity, `push`; at
capacity, compare with the maximum (`peek_mut`): strictly smaller
distances replace the maximum, anything else is dropped.  When several
retained elements tie for the maximum distance, this refinement evicts
the one the model keeps last; the program leaves that choice to `std`
heap internals, so only facts insensitive to it are proved from this
function — tie-sensitive claims are settled against `HeapAddR`, which
covers every choice.  With `k = 0` the source panics (`unwrap` of
`peek_mut` on an empty heap); the `none` branch here returns the heap
unchanged, see `add?`. -/
def add (h : BHeap α) (dist2 : α) (index : Nat) : BHeap α :=
  if h.elems.length < h.k then
    ⟨h.k, insk InternalNeighbour.dist2 ⟨index, dist2⟩ h.elems⟩
  else
    match h.elems.getLast? with
    | none => h
    | some m =>
      if dist2 < m.dist2 then
        ⟨h.k, insk InternalNeighbour.dist2 ⟨index, dist2⟩ h.elems.dropLast⟩
      else h

/-- Panic-aware variant of `add`: `none` models the
`peek_mut().unwrap()` panic on a full empty heap (capacity `k = 0`). -/
def add? (h : BHeap α) (dist2 : α) (index : Nat) : Option (BHeap α) :=
  if h.elems.length < h.k then some (add h dist2 index)
  else
    match h.elems.getLast? with
    | none => none
    | some _ => some (add h dist2 index)

/-- `<BinaryHeap<InternalNeighbour<T>> as CandidateCollector>::furthest_dist2`
(heap.rs:113-120): infinity while below capacity, otherwise the heap
maximum (infinity again if the heap is empty, i.e. `k = 0`). -/
def furthest_dist2 (h : BHeap α) : α :=
  if h.elems.length < h.k then ⊤
  else ((h.elems.getLast?).map InternalNeighbour.dist2).getD ⊤

/-- `<BinaryHeap<InternalNeighbour<T>> as CandidateHeap>::into_vec`
(heap.rs:127-129): the element list in unspecified order (here: the
model's sorted order). -/
def into_vec (h : BHeap α) : List (InternalNeighbour α) := h.elems

/-- `<BinaryHeap<InternalNeighbour<T>> as CandidateHeap>::into_sorted_vec`
(heap.rs:130-132): the elements sorted ascending, which is the model's
representation. -/
def into_sorted_vec (h : BHeap α) : List (InternalNeighbour α) := h.elems

/-- Fold a sequence of `(dist2, index)` observations through `add`. -/
def addAll (h : BHeap α) (obs : List (α × Nat)) : BHeap α :=
  obs.foldl (fun s o => add s o.1 o.2) h

end BHeap

/-- Nondeterministic model of `BinaryHeap::add` (heap.rs:102-112) under
the dist2-only element ordering.  Below capacity the new element is
pushed.  At capacity, if the new distance is strictly below the heap
maximum, the root — an element carrying the maximum distance, but which
one among Ord-equal maxima is standard-library internals that the
program does not pin down — is evicted and the new element inserted;
otherwise the heap is unchanged.  The resulting element list is tracked
only up to permutation, since the internal array order of a binary heap
is likewise unspecified.  Quantifying over this relation covers every
eviction choice the real `std` heap can make; `BHeap.add` is one
executable refinement of it (`bheap_addAll_refines`). -/
inductive HeapAddR (k : Nat) :
    List (InternalNeighbour α) → α × Nat → List (InternalNeighbour α) →
      Prop where
  | push (s s' : List (InternalNeighbour α)) (o : α × Nat)
      (hlen : s.length < k)
      (hperm : s'.Perm (⟨o.2, o.1⟩ :: s)) :
      HeapAddR k s o s'
  | replace (s₁ s₂ s' : List (InternalNeighbour α))
      (m : InternalNeighbour α) (o : α × Nat)
      (hlen : ¬ (s₁ ++ m :: s₂).length < k)
      (hmax : ∀ y ∈ s₁ ++ m :: s₂, y.dist2 ≤ m.dist2)
      (hlt : o.1 < m.dist2)
      (hperm : s'.Perm (⟨o.2, o.1⟩ :: (s₁ ++ s₂))) :
      HeapAddR k (s₁ ++ m :: s₂) o s'
  | reject (s : List (InternalNeighbour α)) (m : InternalNeighbour α)
      (o : α × Nat)
      (hlen : ¬ s.length < k) (hm : m ∈ s)
      (hmax : ∀ y ∈ s, y.dist2 ≤ m.dist2)
      (hge : ¬ o.1 < m.dist2) :
      HeapAddR k s o s

/-- A run of the heap collector: `HeapAddR` folded over the observation
sequence, starting from the empty heap produced by `new_with_k`
(heap.rs:124-126). -/
inductive HeapRunR (k : Nat) :
    List (α × Nat) → List (InternalNeighbour α) → Prop where
  | nil : HeapRunR k [] []
  | step (obs : List (α × Nat)) (o : α × Nat)
      (s s' : List (InternalNeighbour α))
      (hrun : HeapRunR k obs s) (hadd : HeapAddR k s o s') :
      HeapRunR k (obs ++ [o]) s'

namespace InternalNeighbour

/-- `<InternalNeighbour<T> as CandidateCollector>::add` (heap.rs:188-193):
the single-best strategy replaces the held value only on strictly
smaller distance. -/
def add (s : InternalNeighbour α) (dist2 : α) (index : Nat) :
    InternalNeighbour α :=
  if dist2 < s.dist2 then ⟨index, dist2⟩ else s

/-- `<InternalNeighbour<T> as CandidateCollector>::furthest_dist2`
(heap.rs:194-196): the held distance. -/
def furthest_dist2 (s : InternalNeighbour α) : α := s.dist2

/-- `<InternalNeighbour<T> as CandidateHeap>::new_with_k`
(heap.rs:199-205): `debug_assert_eq!(k, 1)` then the infinite sentinel.
The assertion is modelled as a precondition failure (`none`). -/
def new_with_k? (k : Nat) : Option (InternalNeighbour α) :=
  if k = 1 then some ⟨0, ⊤⟩ else none

/-- Fold a sequence of `(dist2, index)` observations through `add`. -/
def addAll (s : InternalNeighbour α) (obs : List (α × Nat)) :
    InternalNeighbour α :=
  obs.foldl (fun t o => add t o.1 o.2) s

end InternalNeighbour

/-- `UnboundedCollector<T, P>` (heap.rs:19): the list of retained internal
indices (field `.0`) and the running maximum distance (field `.1`).  The
`PhantomData` marker carries no data and is omitted. -/
structure UnboundedCollector (α : Type) where
  found : List Nat
  worst : α
deriving DecidableEq

namespace UnboundedCollector

variable [Zero α]

/-- `UnboundedCollector::with_capacity` (heap.rs:33-35): empty index
list, running maximum zero (the capacity only pre-allocates). -/
def with_capacity (capacity : Nat) : UnboundedCollector α :=
  ⟨[], 0⟩

/-- `UnboundedCollector::clear` (heap.rs:37-40). -/
def clear (u : UnboundedCollector α) : UnboundedCollector α := ⟨[], 0⟩

/-- `<UnboundedCollector<T, P> as CandidateCollector>::add`
(heap.rs:22-25): push the index, raise the running maximum. -/
def add (u : UnboundedCollector α) (dist2 : α) (index : Nat) :
    UnboundedCollector α :=
  ⟨u.found ++ [index], max u.worst dist2⟩

/-- `<UnboundedCollector<T, P> as CandidateCollector>::furthest_dist2`
(heap.rs:27-29). -/
def furthest_dist2 (u : UnboundedCollector α) : α := u.worst

/-- `UnboundedCollector::externalise` (heap.rs:44-52): map each retained
internal index through the tree's externalisation.
`KDTree::externalise_index` is not part of the given sources; modelled
from the spec (section 6: a pure `O(1)` lookup) as a function
parameter `f`. -/
def externalise (f : Nat → Nat) (u : UnboundedCollector α) : List Nat :=
  u.found.map f

/-- Fold a sequence of `(dist2, index)` observations through `add`. -/
def addAll (u : UnboundedCollector α) (obs : List (α × Nat)) :
    UnboundedCollector α :=
  obs.foldl (fun s o => add s o.1 o.2) u

end UnboundedCollector

/-- User-facing query parameters (the fields of `Parameters<T>` consumed
by `internal_parameters.rs`; the float scalar is modelled as `ℚ`,
i.e. exact arithmetic). -/
structure Parameters where
  epsilon : ℚ
  max_radius : ℚ
  allow_self_match : Bool
deriving DecidableEq

/-- `InternalParameters<T>` (internal_parameters.rs:6-10). -/
structure InternalParameters where
  max_error2 : ℚ
  max_radius2 : ℚ
  allow_self_match : Bool
deriving DecidableEq

/-- `impl From<&Parameters<T>> for InternalParameters<T>`
(internal_parameters.rs:12-29): `max_error = epsilon + 1`,
`max_error2 = max_error * max_error`,
`max_radius2 = max_radius * max_radius`, `allow_self_match` unchanged. -/
def internalParametersFrom (p : Parameters) : InternalParameters :=
  let max_error := p.epsilon + 1
  { max_error2 := max_error * max_error
    max_radius2 := p.max_radius * p.max_radius
    allow_self_match := p.allow_self_match }

/-- View a `(dist2, index)` observation as the neighbour record it
creates. -/
def obsToNeighbour (o : α × Nat) : InternalNeighbour α := ⟨o.2, o.1⟩

/-- The reference answer for a `k`-bounded query: the observations
stably sorted by distance (first-seen first among ties), truncated to
the `k` smallest. -/
def kSmallest (k : Nat) (obs : List (α × Nat)) : List (InternalNeighbour α) :=
  (sortk InternalNeighbour.dist2 (obs.map obsToNeighbour)).take k

/-- Sortedness of a list by the key `κ` (ascending, non-strict). -/
abbrev KSorted {β : Type} (κ : β → α) (l : List β) : Prop :=
  l.Sorted (fun a b => κ a ≤ κ b)

/-- The minimum distance among a list of observations (`⊤` if there is
none): the reference answer for the single-best strategy. -/
def minD (obs : List (α × Nat)) : α :=
  obs.foldr (fun o m => min o.1 m) ⊤

/-!
## Helper lemmas about ordered insertion and stable sorting
-/

section InskLemmas

variable {β : Type} {κ : β → α} {x y : β} {l A B : List β}

theorem insk_length (κ : β → α) (x : β) (l : List β) :
    (insk κ x l).length = l.length + 1 := by
  induction l with
  | nil => rfl
  | cons y ys ih =>
    simp only [insk]
    split <;> simp [ih]

theorem insk_ne_nil (κ : β → α) (x : β) (l : List β) : insk κ x l ≠ [] := by
  intro h
  have := insk_length κ x l
  rw [h] at this
  simp at this

theorem insk_perm (κ : β → α) (x : β) (l : List β) :
    (insk κ x l).Perm (x :: l) := by
  induction l with
  | nil => rfl
  | cons y ys ih =>
    simp only [insk]
    split
    · rfl
    · exact (ih.cons y).trans (List.Perm.swap x y ys)

theorem mem_insk {κ : β → α} {x y : β} {l : List β} :
    y ∈ insk κ x l ↔ y = x ∨ y ∈ l := by
  rw [(insk_perm κ x l).mem_iff]
  simp

theorem insk_all_le (h : ∀ y ∈ l, ¬ κ x < κ y) :
    insk κ x l = l ++ [x] := by
  induction l with
  | nil => rfl
  | cons y ys ih =>
    have hy : ¬ κ x < κ y := h y (by simp)
    simp only [insk, if_neg hy]
    simp [ih (fun z hz => h z (by simp [hz]))]

theorem insk_append_lt (h : ∀ y ∈ B, κ x < κ y) :
    insk κ x (A ++ B) = insk κ x A ++ B := by
  induction A with
  | nil =>
    cases B with
    | nil => rfl
    | cons b bs => simp [insk, h b (by simp)]
  | cons a as ih =>
    simp only [List.cons_append, insk]
    split <;> simp [ih]

theorem sorted_insk (hs : KSorted κ l) (x : β) : KSorted κ (insk κ x l) := by
  induction l with
  | nil => simp [insk, KSorted]
  | cons y ys ih =>
    obtain ⟨hy, hys⟩ := List.sorted_cons.1 hs
    simp only [insk]
    split
    · rename_i hlt
      refine List.sorted_cons.2 ⟨?_, List.sorted_cons.2 ⟨hy, hys⟩⟩
      intro b hb
      rcases List.mem_cons.1 hb with rfl | hb
      · exact le_of_lt hlt
      · exact (le_of_lt hlt).trans (hy b hb)
    · rename_i hge
      refine List.sorted_cons.2 ⟨?_, ih hys⟩
      intro b hb
      rcases mem_insk.1 hb with rfl | hb
      · exact not_lt.1 hge
      · exact hy b hb

theorem sortk_concat (κ : β → α) (l : List β) (x : β) :
    sortk κ (l ++ [x]) = insk κ x (sortk κ l) := by
  simp [sortk, List.foldl_append]

theorem sortk_perm (κ : β → α) (l : List β) : (sortk κ l).Perm l := by
  induction l using List.reverseRecOn with
  | nil => rfl
  | append_singleton xs x ih =>
    rw [sortk_concat]
    exact ((insk_perm κ x (sortk κ xs)).trans (ih.cons x)).trans
      (List.perm_append_singleton x xs).symm

theorem sortk_length (κ : β → α) (l : List β) :
    (sortk κ l).length = l.length :=
  (sortk_perm κ l).length_eq

theorem mem_sortk {κ : β → α} {y : β} {l : List β} :
    y ∈ sortk κ l ↔ y ∈ l :=
  (sortk_perm κ l).mem_iff

theorem sorted_sortk (κ : β → α) (l : List β) : KSorted κ (sortk κ l) := by
  induction l using List.reverseRecOn with
  | nil => simp [sortk, KSorted]
  | append_singleton xs x ih =>
    rw [sortk_concat]
    exact sorted_insk ih x

theorem map_insk (κ : β → α) (x : β) (l : List β) :
    (insk κ x l).map κ = insk id (κ x) (l.map κ) := by
  induction l with
  | nil => rfl
  | cons y ys ih =>
    simp only [insk, List.map_cons, id]
    split <;> simp_all [insk]

theorem map_sortk (κ : β → α) (l : List β) :
    (sortk κ l).map κ = sortk id (l.map κ) := by
  induction l using List.reverseRecOn with
  | nil => rfl
  | append_singleton xs x ih =>
    rw [sortk_concat, map_insk, ih, List.map_append]
    simp [sortk_concat]

end InskLemmas

/-!
## Helper lemmas about last elements of sorted lists
-/

section LastLemmas

variable {β : Type} {κ : β → α} {x y c c' : β} {l A B : List β}

theorem getLastD_mem (h : l ≠ []) (c : β) : l.getLastD c ∈ l := by
  induction l generalizing c with
  | nil => exact absurd rfl h
  | cons a as ih =>
    rw [List.getLastD_cons]
    cases as with
    | nil => simp
    | cons a' as' => exact List.mem_cons_of_mem a (ih (by simp) a)

theorem getLastD_irrel (h : l ≠ []) (c c' : β) :
    l.getLastD c = l.getLastD c' := by
  cases l with
  | nil => exact absurd rfl h
  | cons a as => rw [List.getLastD_cons, List.getLastD_cons]

theorem le_getLastD_of_sorted {κ : β → α} :
    ∀ {l : List β}, KSorted κ l → ∀ {y : β}, y ∈ l → ∀ c : β,
      κ y ≤ κ (l.getLastD c)
  | [], _, y, hy, _ => by simp at hy
  | a :: as, hs, y, hy, c => by
    obtain ⟨ha, has⟩ := List.sorted_cons.1 hs
    rw [List.getLastD_cons]
    cases as with
    | nil =>
      rcases List.mem_cons.1 hy with h | h
      · rw [h]
        simp [List.getLastD]
      · simp at h
    | cons a' as' =>
      rcases List.mem_cons.1 hy with h | h
      · rw [h]
        exact ha _ (getLastD_mem (by simp) a)
      · exact le_getLastD_of_sorted has h a

theorem dropLast_append_getLastD (h : l ≠ []) (c : β) :
    l.dropLast ++ [l.getLastD c] = l := by
  induction l generalizing c with
  | nil => exact absurd rfl h
  | cons a as ih =>
    cases as with
    | nil => simp
    | cons a' as' =>
      rw [List.getLastD_cons]
      have : (a :: a' :: as').dropLast = a :: (a' :: as').dropLast := by simp
      rw [this, List.cons_append, ih (by simp) a]

end LastLemmas

/-!
## The central lemmas: how `take k` interacts with ordered insertion

Both bounded strategies hold exactly the `k` least elements seen so far.
A fresh observation strictly below the `k`-th retained key displaces the
`k`-th element (`take_insk_of_lt`); anything at or above it leaves the
first `k` elements untouched (`take_insk_of_ge`); at the distance level
an observation exactly equal to the `k`-th key rewrites the boundary slot
with an equal value (`take_insk_id_eq`).
-/

section TakeInsk

variable {β : Type} {κ : β → α} {x : β} {A B : List β}

theorem take_pred_append (C D : List β) :
    (C ++ D).take (C.length - 1) = C.dropLast := by
  rw [List.take_append_eq_append_take]
  have h1 : C.length - 1 - C.length = 0 := by omega
  rw [h1, List.take_zero, List.append_nil, List.dropLast_eq_take]

theorem take_insk_of_ge (hs : KSorted κ (A ++ B))
    (hx : κ (A.getLastD x) ≤ κ x) :
    (insk κ x (A ++ B)).take A.length = A := by
  induction A with
  | nil => simp
  | cons a as ih =>
    have hsA : KSorted κ (a :: as) :=
      hs.sublist (List.sublist_append_left (a :: as) B)
    have ha : κ a ≤ κ ((a :: as).getLastD x) :=
      le_getLastD_of_sorted hsA (by simp) x
    have hnlt : ¬ κ x < κ a := not_lt.2 (ha.trans hx)
    rw [List.cons_append]
    simp only [insk, if_neg hnlt]
    rw [List.length_cons, List.take_succ_cons]
    congr 1
    apply ih hs.of_cons
    cases as with
    | nil => simp
    | cons a' as' =>
      rw [List.getLastD_cons] at hx
      rwa [getLastD_irrel (l := a' :: as') (by simp) x a]

theorem take_insk_of_lt (hs : KSorted κ (A ++ B)) (hA : A ≠ [])
    (hx : κ x < κ (A.getLastD x)) :
    (insk κ x (A ++ B)).take A.length = insk κ x A.dropLast := by
  induction A with
  | nil => exact absurd rfl hA
  | cons a as ih =>
    cases as with
    | nil =>
      rw [List.getLastD_cons] at hx
      simp only [List.getLastD] at hx
      simp [insk, hx]
    | cons a' as' =>
      by_cases hxa : κ x < κ a
      · rw [List.cons_append]
        simp only [insk, if_pos hxa]
        simp only [List.length_cons, List.take_succ_cons]
        congr 2
        have h := take_pred_append (a' :: as') B
        simpa using h
      · rw [List.cons_append]
        simp only [insk, if_neg hxa]
        simp only [List.length_cons, List.take_succ_cons]
        congr 1
        have hx' : κ x < κ ((a' :: as').getLastD x) := by
          rw [List.getLastD_cons] at hx
          rwa [getLastD_irrel (l := a' :: as') (by simp) a x] at hx
        have h := ih hs.of_cons (by simp) hx'
        simpa using h

theorem take_insk_id_eq {x : α} {A B : List α}
    (hs : KSorted id (A ++ B)) (hA : A ≠ [])
    (hx : A.getLastD x = x) :
    (insk (id : α → α) x (A ++ B)).take A.length = insk id x A.dropLast := by
  have hsA : KSorted id A := hs.sublist (List.sublist_append_left A B)
  have h1 : (insk (id : α → α) x (A ++ B)).take A.length = A :=
    take_insk_of_ge hs (by rw [hx])
  have h2 : insk (id : α → α) x A.dropLast = A.dropLast ++ [x] := by
    apply insk_all_le
    intro y hy
    have hyA : y ∈ A := List.dropLast_subset A hy
    have hle := le_getLastD_of_sorted hsA hyA x
    simp only [id] at hle
    rw [hx] at hle
    exact not_lt.2 hle
  rw [h1, h2]
  conv_lhs => rw [← dropLast_append_getLastD hA x]
  rw [hx]

end TakeInsk

/-!
## Miscellaneous bridging lemmas
-/

section Bridging

variable {β : Type} {κ : β → α}

@[simp] theorem obsToNeighbour_dist2 (o : α × Nat) :
    (obsToNeighbour (α := α) o).dist2 = o.1 := rfl

@[simp] theorem obsToNeighbour_index (o : α × Nat) :
    (obsToNeighbour (α := α) o).index = o.2 := rfl

theorem take_append_replicate {k m : Nat} {c : β} {A : List β}
    (h : k ≤ A.length + m) :
    (A ++ List.replicate m c).take k
      = A.take k ++ List.replicate (k - A.length) c := by
  rw [List.take_append_eq_append_take, List.take_replicate]
  congr 2
  omega

theorem ksorted_replicate (m : Nat) (z : β) :
    KSorted κ (List.replicate m z) :=
  List.pairwise_replicate.2 (Or.inr (le_refl _))

theorem ksorted_append {A B : List β} (hA : KSorted κ A) (hB : KSorted κ B)
    (hab : ∀ a ∈ A, ∀ b ∈ B, κ a ≤ κ b) : KSorted κ (A ++ B) :=
  List.pairwise_append.2 ⟨hA, hB, hab⟩

theorem map_getLastD (f : β → α) (l : List β) (c : β) :
    (l.map f).getLastD (f c) = f (l.getLastD c) := by
  induction l generalizing c with
  | nil => rfl
  | cons a as ih => rw [List.map_cons, List.getLastD_cons, List.getLastD_cons, ih]

theorem ksorted_iff_map {l : List β} :
    KSorted κ l ↔ (l.map κ).Sorted (· ≤ ·) := by
  unfold KSorted List.Sorted
  rw [List.pairwise_map]

theorem ksorted_take {l : List β} (hs : KSorted κ l) (n : Nat) :
    KSorted κ (l.take n) :=
  hs.sublist (List.take_sublist n l)

/-- `keep_finite_elements` is the sorted array's sentinel stripper: it
keeps the longest prefix of entries with finite distance. -/
theorem keep_finite_cons (a : InternalNeighbour α) (l : List (InternalNeighbour α)) :
    keep_finite_elements (a :: l)
      = if a.dist2 = ⊤ then [] else a :: keep_finite_elements l := by
  unfold keep_finite_elements
  rw [List.findIdx?_cons]
  by_cases h : a.dist2 = ⊤
  · simp [h]
  · simp only [decide_eq_false h, Bool.false_eq_true, if_false, if_neg h]
    rw [List.findIdx?_succ]
    cases hf : List.findIdx? (fun n => decide (n.dist2 = ⊤)) l with
    | none => simp [hf]
    | some pos => simp [hf]

theorem keep_finite_eq_takeWhile (v : List (InternalNeighbour α)) :
    keep_finite_elements v = v.takeWhile (fun n => n.dist2 ≠ ⊤) := by
  induction v with
  | nil => rfl
  | cons a l ih =>
    rw [keep_finite_cons, List.takeWhile_cons]
    by_cases h : a.dist2 = ⊤ <;> simp [h, ih]

theorem keep_finite_of_all_finite {v : List (InternalNeighbour α)}
    (h : ∀ e ∈ v, e.dist2 ≠ ⊤) : keep_finite_elements v = v := by
  rw [keep_finite_eq_takeWhile]
  induction v with
  | nil => rfl
  | cons a l ih =>
    have ha : (decide (a.dist2 ≠ ⊤)) = true := decide_eq_true (h a (by simp))
    have hl := ih (fun e he => h e (by simp [he]))
    rw [List.takeWhile_cons, if_pos ha, hl]

theorem keep_finite_append_replicate_top
    (A : List (InternalNeighbour α)) (m : Nat) (z : Nat)
    (hA : ∀ e ∈ A, e.dist2 ≠ ⊤) :
    keep_finite_elements (A ++ List.replicate m ⟨z, ⊤⟩) = A := by
  rw [keep_finite_eq_takeWhile, List.takeWhile_append]
  have h1 : A.takeWhile (fun n => decide (n.dist2 ≠ ⊤)) = A := by
    rw [← keep_finite_eq_takeWhile, keep_finite_of_all_finite hA]
  rw [h1, if_pos rfl, List.takeWhile_replicate]
  simp

end Bridging

/-!
## Unfolding lemmas for the fold of `add` over an observation sequence
-/

section AddAllLemmas

variable (v : List (InternalNeighbour α)) (h : BHeap α) (s : InternalNeighbour α)
variable (u : UnboundedCollector α) (obs : List (α × Nat)) (o : α × Nat)

theorem vec_addAll_concat :
    VecCollector.addAll v (obs ++ [o])
      = VecCollector.add (VecCollector.addAll v obs) o.1 o.2 := by
  simp [VecCollector.addAll, List.foldl_append]

theorem bheap_addAll_concat :
    BHeap.addAll h (obs ++ [o]) = BHeap.add (BHeap.addAll h obs) o.1 o.2 := by
  simp [BHeap.addAll, List.foldl_append]

theorem sb_addAll_concat :
    InternalNeighbour.addAll s (obs ++ [o])
      = InternalNeighbour.add (InternalNeighbour.addAll s obs) o.1 o.2 := by
  simp [InternalNeighbour.addAll, List.foldl_append]

theorem bheap_add_k (d : α) (i : Nat) : (BHeap.add h d i).k = h.k := by
  unfold BHeap.add
  split
  · rfl
  · split
    · rfl
    · split <;> rfl

theorem bheap_addAll_k : (BHeap.addAll h obs).k = h.k := by
  induction obs using List.reverseRecOn with
  | nil => rfl
  | append_singleton os o ih => rw [bheap_addAll_concat, bheap_add_k, ih]

end AddAllLemmas

/-!
## Characterization of the heap strategy

After any sequence of observations, the heap holds exactly the first `k`
entries of the stably sorted observation list.
-/

theorem bheap_addAll_elems (k : Nat) (obs : List (α × Nat)) :
    (BHeap.addAll (BHeap.new_with_k k) obs).elems
      = (sortk InternalNeighbour.dist2 (obs.map obsToNeighbour)).take k := by
  induction obs using List.reverseRecOn with
  | nil => simp [BHeap.addAll, BHeap.new_with_k, sortk]
  | append_singleton os o ih =>
    rw [bheap_addAll_concat]
    set x : InternalNeighbour α := obsToNeighbour o with hx
    set S : List (InternalNeighbour α) :=
      sortk InternalNeighbour.dist2 (os.map obsToNeighbour) with hS
    have hSsorted : KSorted InternalNeighbour.dist2 S :=
      sorted_sortk InternalNeighbour.dist2 (os.map obsToNeighbour)
    have htarget : sortk InternalNeighbour.dist2
        ((os ++ [o]).map obsToNeighbour) = insk InternalNeighbour.dist2 x S := by
      rw [List.map_append, List.map_singleton, sortk_concat]
    rw [htarget]
    set st := BHeap.addAll (BHeap.new_with_k (α := α) k) os with hst
    have hk : st.k = k := by
      rw [hst, bheap_addAll_k]
      rfl
    by_cases hlen : st.elems.length < st.k
    · -- below capacity: push
      have hpush : BHeap.add st o.1 o.2 = ⟨st.k, insk InternalNeighbour.dist2 x st.elems⟩ := by
        unfold BHeap.add
        rw [if_pos hlen]
        rfl
      rw [hpush]
      have hSlt : S.length < k := by
        rw [ih] at hlen
        rw [hk] at hlen
        have := List.length_take_le k S
        have h2 : (S.take k).length = min k S.length := List.length_take k S
        omega
      have hSk : S.take k = S := List.take_of_length_le (le_of_lt hSlt)
      rw [ih, hSk]
      have : (insk InternalNeighbour.dist2 x S).length ≤ k := by
        rw [insk_length]
        omega
      rw [List.take_of_length_le this]
    · -- at capacity
      have hkS : k ≤ S.length := by
        have h2 : (S.take k).length = min k S.length := List.length_take k S
        rw [ih, hk] at hlen
        omega
      have hlenk : (S.take k).length = k := by
        rw [List.length_take]
        omega
      rcases Nat.eq_zero_or_pos k with hk0 | hk0
      · -- capacity zero: the heap stays empty (the real code would panic in add)
        subst hk0
        have he : st.elems = [] := by
          rw [ih]
          simp
        have : BHeap.add st o.1 o.2 = st := by
          unfold BHeap.add
          rw [if_neg hlen, he]
          rfl
        rw [this, he]
        simp
      · have hne : st.elems ≠ [] := by
          rw [ih]
          intro hcon
          rw [hcon] at hlenk
          simp at hlenk
          omega
        obtain ⟨m, hg⟩ : ∃ m, st.elems.getLast? = some m := by
          cases hgl : st.elems.getLast? with
          | none => exact absurd (List.getLast?_eq_none_iff.1 hgl) hne
          | some m => exact ⟨m, rfl⟩
        have hmD : (S.take k).getLastD x = m := by
          rw [List.getLastD_eq_getLast?, ← ih, hg]
          rfl
        by_cases hdm : o.1 < m.dist2
        · have hadd : BHeap.add st o.1 o.2
              = ⟨st.k, insk InternalNeighbour.dist2 x st.elems.dropLast⟩ := by
            unfold BHeap.add
            rw [if_neg hlen, hg]
            simp only [hdm, if_true]
            rfl
          rw [hadd, ih]
          have hlt := take_insk_of_lt (κ := InternalNeighbour.dist2)
            (A := S.take k) (B := S.drop k) (x := x)
            (by rw [List.take_append_drop]; exact hSsorted)
            (by
              intro hcon
              rw [hcon] at hlenk
              simp at hlenk
              omega)
            (by rw [hmD]; simpa using hdm)
          rw [List.take_append_drop] at hlt
          rw [hlenk] at hlt
          exact hlt.symm ▸ rfl
        · have hadd : BHeap.add st o.1 o.2 = st := by
            unfold BHeap.add
            rw [if_neg hlen, hg]
            simp only [hdm, if_false]
          rw [hadd, ih]
          have hge := take_insk_of_ge (κ := InternalNeighbour.dist2)
            (A := S.take k) (B := S.drop k) (x := x)
            (by rw [List.take_append_drop]; exact hSsorted)
            (by rw [hmD]; simpa using not_lt.1 hdm)
          rw [List.take_append_drop] at hge
          rw [hlenk] at hge
          exact hge.symm

/-!
## Characterization of the sorted-array strategy

At the distance level (no hypotheses beyond `1 ≤ k`): after any sequence
of observations the array's distance column is the `k`-element prefix of
the sorted observed distances padded with infinities.
-/

theorem vec_furthest_eq_map (v : List (InternalNeighbour α)) :
    VecCollector.furthest_dist2 v
      = (v.map InternalNeighbour.dist2).getLastD ⊤ :=
  (map_getLastD InternalNeighbour.dist2 v ⟨0, ⊤⟩).symm

theorem vec_add_cons (a : InternalNeighbour α) (as : List (InternalNeighbour α))
    (d : α) (i : Nat) :
    VecCollector.add (a :: as) d i
      = if VecCollector.furthest_dist2 (a :: as) < d then a :: as
        else insk InternalNeighbour.dist2 ⟨i, d⟩ (a :: as).dropLast := rfl

theorem vec_add_of_ne_nil {v : List (InternalNeighbour α)} (hv : v ≠ [])
    (d : α) (i : Nat) :
    VecCollector.add v d i
      = if VecCollector.furthest_dist2 v < d then v
        else insk InternalNeighbour.dist2 ⟨i, d⟩ v.dropLast := by
  cases v with
  | nil => exact absurd rfl hv
  | cons a as => exact vec_add_cons a as d i

theorem ksorted_top_pad {Sd : List α} (hs : KSorted (id : α → α) Sd)
    (m : Nat) : KSorted (id : α → α) (Sd ++ List.replicate m ⊤) :=
  ksorted_append hs (ksorted_replicate m ⊤)
    (fun a _ b hb => by
      rw [List.eq_of_mem_replicate hb]
      exact le_top)

theorem vec_addAll_dists (k : Nat) (hk : 1 ≤ k) (obs : List (α × Nat)) :
    (VecCollector.addAll (VecCollector.new_with_k k) obs).map
        InternalNeighbour.dist2
      = ((sortk id (obs.map Prod.fst)) ++ List.replicate k ⊤).take k := by
  induction obs using List.reverseRecOn with
  | nil =>
    simp [VecCollector.addAll, VecCollector.new_with_k, sortk,
      List.map_replicate, List.take_replicate]
  | append_singleton os o ih =>
    rw [vec_addAll_concat]
    set Sd : List α := sortk id (os.map Prod.fst) with hSd
    set P : List α := List.replicate k (⊤ : α) with hP
    have hsorted : KSorted (id : α → α) (Sd ++ P) :=
      ksorted_top_pad (sorted_sortk id (os.map Prod.fst)) k
    have hlenSP : k ≤ (Sd ++ P).length := by
      rw [List.length_append, hP, List.length_replicate]
      omega
    set st := VecCollector.addAll (VecCollector.new_with_k (α := α) k) os
      with hst
    have hlenM : ((Sd ++ P).take k).length = k := by
      rw [List.length_take]
      omega
    have hstlen : st.length = k := by
      have h := congrArg List.length ih
      rwa [List.length_map, hlenM] at h
    have hne : st ≠ [] := by
      intro hcon
      rw [hcon] at hstlen
      simp at hstlen
      omega
    have hAne : (Sd ++ P).take k ≠ [] := by
      intro hcon
      rw [hcon] at hlenM
      simp at hlenM
      omega
    have htarget : sortk id ((os ++ [o]).map Prod.fst) = insk id o.1 Sd := by
      rw [List.map_append, List.map_singleton, sortk_concat]
    rw [htarget]
    have hfur : VecCollector.furthest_dist2 st
        = ((Sd ++ P).take k).getLastD ⊤ := by
      rw [vec_furthest_eq_map, ih]
    rw [vec_add_of_ne_nil hne]
    have hmap : (insk InternalNeighbour.dist2 ⟨o.2, o.1⟩ st.dropLast).map
        InternalNeighbour.dist2
        = insk id o.1 ((Sd ++ P).take k).dropLast := by
      rw [map_insk, List.map_dropLast, ih]
    rcases lt_or_eq_of_le (le_top (a := o.1)) with hdt | hdt
    · -- finite observation
      have hbridge : insk id o.1 Sd ++ P = insk id o.1 (Sd ++ P) := by
        refine (insk_append_lt ?_).symm
        intro y hy
        rw [List.eq_of_mem_replicate hy]
        exact hdt
      rw [hbridge]
      by_cases hLd : VecCollector.furthest_dist2 st < o.1
      · -- rejected: not strictly below the last slot
        rw [if_pos hLd, ih]
        have hge := take_insk_of_ge (κ := (id : α → α))
          (A := (Sd ++ P).take k) (B := (Sd ++ P).drop k) (x := o.1)
          (by rw [List.take_append_drop]; exact hsorted)
          (by
            rw [getLastD_irrel hAne _ (⊤ : α)]
            rw [hfur] at hLd
            exact le_of_lt hLd)
        rw [List.take_append_drop, hlenM] at hge
        exact hge.symm
      · -- accepted: ordered insertion into the first k - 1 slots
        rw [if_neg hLd, hmap]
        rw [hfur] at hLd
        rcases lt_or_eq_of_le (not_lt.1 hLd) with hlt | heq
        · have h := take_insk_of_lt (κ := (id : α → α))
            (A := (Sd ++ P).take k) (B := (Sd ++ P).drop k) (x := o.1)
            (by rw [List.take_append_drop]; exact hsorted)
            hAne
            (by rwa [getLastD_irrel hAne _ (⊤ : α)])
          rw [List.take_append_drop, hlenM] at h
          exact h.symm
        · have h := take_insk_id_eq
            (A := (Sd ++ P).take k) (B := (Sd ++ P).drop k) (x := o.1)
            (by rw [List.take_append_drop]; exact hsorted)
            hAne
            (by rw [getLastD_irrel hAne _ (⊤ : α)]; exact heq.symm)
          rw [List.take_append_drop, hlenM] at h
          exact h.symm
    · -- infinite observation: the distance column never changes
      rw [hdt] at hmap ⊢
      have hRHS : (insk id (⊤ : α) Sd ++ P).take k = (Sd ++ P).take k := by
        have h1 : insk (id : α → α) (⊤ : α) Sd = Sd ++ [⊤] :=
          insk_all_le (fun y _ => not_top_lt)
        rw [h1, List.append_assoc, List.singleton_append, hP,
          ← List.replicate_succ]
        rw [take_append_replicate (by omega),
          take_append_replicate (by omega)]
      rw [hRHS]
      by_cases hLd : VecCollector.furthest_dist2 st < (⊤ : α)
      · rw [if_pos hLd, ih]
      · rw [if_neg hLd, hmap]
        have hft : ((Sd ++ P).take k).getLastD ⊤ = (⊤ : α) := by
          rw [← hfur]
          exact top_le_iff.1 (not_lt.1 hLd)
        have h2 : insk (id : α → α) (⊤ : α) ((Sd ++ P).take k).dropLast
            = ((Sd ++ P).take k).dropLast ++ [⊤] :=
          insk_all_le (fun y _ => not_top_lt)
        rw [h2, ← hft, dropLast_append_getLastD hAne]

/-- Underfull array, all observations finite: the array is exactly the
stably sorted observations followed by the untouched sentinel slots. -/
theorem vec_addAll_underfull (k : Nat) (obs : List (α × Nat))
    (hfin : ∀ o ∈ obs, o.1 < ⊤) (hlt : obs.length < k) :
    VecCollector.addAll (VecCollector.new_with_k k) obs
      = sortk InternalNeighbour.dist2 (obs.map obsToNeighbour)
        ++ List.replicate (k - obs.length) (⟨0, ⊤⟩ : InternalNeighbour α) := by
  induction obs using List.reverseRecOn with
  | nil => simp [VecCollector.addAll, VecCollector.new_with_k, sortk]
  | append_singleton os o ih =>
    have hos : os.length < k := by
      rw [List.length_append] at hlt
      simp at hlt
      omega
    have hoslt : os.length + 1 ≤ k - 1 := by
      rw [List.length_append] at hlt
      simp at hlt
      omega
    have hfino : ∀ o' ∈ os, o'.1 < ⊤ := fun o' ho' => hfin o' (by simp [ho'])
    have hd : o.1 < ⊤ := hfin o (by simp)
    rw [vec_addAll_concat, ih hfino hos]
    set z : InternalNeighbour α := ⟨0, ⊤⟩ with hz
    set SP : List (InternalNeighbour α) :=
      sortk InternalNeighbour.dist2 (os.map obsToNeighbour) with hSP
    have hm : k - os.length = (k - os.length - 1) + 1 := by omega
    have hsplit : SP ++ List.replicate (k - os.length) z
        = (SP ++ List.replicate (k - os.length - 1) z) ++ [z] := by
      nth_rewrite 1 [hm]
      rw [List.replicate_succ' (k - os.length - 1) z, ← List.append_assoc]
    rw [hsplit]
    have hne : (SP ++ List.replicate (k - os.length - 1) z) ++ [z] ≠ [] := by
      simp
    rw [vec_add_of_ne_nil hne]
    have hfur : VecCollector.furthest_dist2
        ((SP ++ List.replicate (k - os.length - 1) z) ++ [z]) = (⊤ : α) := by
      unfold VecCollector.furthest_dist2
      rw [List.getLastD_concat]
    rw [hfur, if_neg not_top_lt, List.dropLast_concat]
    have hinsk : insk InternalNeighbour.dist2 ⟨o.2, o.1⟩
        (SP ++ List.replicate (k - os.length - 1) z)
        = insk InternalNeighbour.dist2 ⟨o.2, o.1⟩ SP
          ++ List.replicate (k - os.length - 1) z := by
      apply insk_append_lt
      intro y hy
      rw [List.eq_of_mem_replicate hy]
      exact hd
    rw [hinsk]
    have htarget : sortk InternalNeighbour.dist2 ((os ++ [o]).map obsToNeighbour)
        = insk InternalNeighbour.dist2 ⟨o.2, o.1⟩ SP := by
      rw [List.map_append, List.map_singleton, sortk_concat]
      rfl
    rw [htarget]
    congr 1
    rw [List.length_append]
    simp
    omega

/-- Full pair-level characterization of the array under pairwise distinct,
finite distances: it coincides with the `k`-prefix of the stably sorted
observations (padded with sentinels while underfull). -/
theorem vec_addAll_pair (k : Nat) (hk : 1 ≤ k) (obs : List (α × Nat))
    (hfin : ∀ o ∈ obs, o.1 < ⊤) (hnd : (obs.map Prod.fst).Nodup) :
    VecCollector.addAll (VecCollector.new_with_k k) obs
      = (sortk InternalNeighbour.dist2 (obs.map obsToNeighbour)
          ++ List.replicate k (⟨0, ⊤⟩ : InternalNeighbour α)).take k := by
  induction obs using List.reverseRecOn with
  | nil =>
    show List.replicate k (⟨0, ⊤⟩ : InternalNeighbour α)
        = (([] : List (InternalNeighbour α))
            ++ List.replicate k (⟨0, ⊤⟩ : InternalNeighbour α)).take k
    rw [List.nil_append, List.take_replicate, min_self]
  | append_singleton os o ih =>
    have hfino : ∀ o' ∈ os, o'.1 < ⊤ := fun o' ho' => hfin o' (by simp [ho'])
    have hd : o.1 < ⊤ := hfin o (by simp)
    have hndo : (os.map Prod.fst).Nodup ∧ o.1 ∉ os.map Prod.fst := by
      rw [List.map_append, List.map_singleton] at hnd
      have hp := (List.perm_append_singleton o.1 (os.map Prod.fst)).nodup_iff
      rw [hp, List.nodup_cons] at hnd
      exact ⟨hnd.2, hnd.1⟩
    rw [vec_addAll_concat, ih hfino hndo.1]
    set z : InternalNeighbour α := ⟨0, ⊤⟩ with hz
    set SP : List (InternalNeighbour α) :=
      sortk InternalNeighbour.dist2 (os.map obsToNeighbour) with hSP
    set PZ : List (InternalNeighbour α) := List.replicate k z with hPZ
    have hsorted : KSorted InternalNeighbour.dist2 (SP ++ PZ) := by
      refine ksorted_append (sorted_sortk _ _) (ksorted_replicate k z) ?_
      intro a _ b hb
      rw [List.eq_of_mem_replicate hb]
      exact le_top
    have hlenSP : k ≤ (SP ++ PZ).length := by
      rw [List.length_append, hPZ, List.length_replicate]
      omega
    have hlenA : ((SP ++ PZ).take k).length = k := by
      rw [List.length_take]
      omega
    have hAne : (SP ++ PZ).take k ≠ [] := by
      intro hcon
      rw [hcon] at hlenA
      simp at hlenA
      omega
    have htarget : sortk InternalNeighbour.dist2 ((os ++ [o]).map obsToNeighbour)
        = insk InternalNeighbour.dist2 ⟨o.2, o.1⟩ SP := by
      rw [List.map_append, List.map_singleton, sortk_concat]
      rfl
    rw [htarget]
    have hbridge : insk InternalNeighbour.dist2 ⟨o.2, o.1⟩ SP ++ PZ
        = insk InternalNeighbour.dist2 ⟨o.2, o.1⟩ (SP ++ PZ) := by
      refine (insk_append_lt ?_).symm
      intro y hy
      rw [List.eq_of_mem_replicate hy]
      exact hd
    rw [hbridge, vec_add_of_ne_nil hAne]
    set m : InternalNeighbour α := ((SP ++ PZ).take k).getLastD z with hm
    have hfur : VecCollector.furthest_dist2 ((SP ++ PZ).take k) = m.dist2 := by
      unfold VecCollector.furthest_dist2
      rw [hm, hz]
    by_cases hLd : VecCollector.furthest_dist2 ((SP ++ PZ).take k) < o.1
    · rw [if_pos hLd]
      have hge := take_insk_of_ge (κ := InternalNeighbour.dist2)
        (A := (SP ++ PZ).take k) (B := (SP ++ PZ).drop k) (x := ⟨o.2, o.1⟩)
        (by rw [List.take_append_drop]; exact hsorted)
        (by
          rw [getLastD_irrel hAne _ z, ← hm]
          rw [hfur] at hLd
          exact le_of_lt hLd)
      rw [List.take_append_drop, hlenA] at hge
      exact hge.symm
    · rw [if_neg hLd]
      have hstrict : o.1 < m.dist2 := by
        rw [hfur] at hLd
        rcases lt_or_eq_of_le (not_lt.1 hLd) with h | h
        · exact h
        · exfalso
          have hmem : m ∈ SP ++ PZ :=
            List.take_subset k (SP ++ PZ) (hm ▸ getLastD_mem hAne z)
          rcases List.mem_append.1 hmem with hmem | hmem
          · have hmem2 : m ∈ (os.map obsToNeighbour) := mem_sortk.1 hmem
            obtain ⟨o', ho', heq⟩ := List.mem_map.1 hmem2
            have h1 : o'.1 ∈ os.map Prod.fst := List.mem_map_of_mem Prod.fst ho'
            have h2 : m.dist2 = o'.1 := by
              rw [← heq]
              rfl
            rw [h2] at h
            rw [← h] at h1
            exact hndo.2 h1
          · have : m = z := List.eq_of_mem_replicate hmem
            rw [this, hz] at h
            exact absurd (h ▸ hd) (lt_irrefl ⊤)
      have hlt := take_insk_of_lt (κ := InternalNeighbour.dist2)
        (A := (SP ++ PZ).take k) (B := (SP ++ PZ).drop k) (x := ⟨o.2, o.1⟩)
        (by rw [List.take_append_drop]; exact hsorted)
        hAne
        (by
          rw [getLastD_irrel hAne _ z, ← hm]
          exact hstrict)
      rw [List.take_append_drop, hlenA] at hlt
      exact hlt.symm

/-!
## Pruning-bound lemmas
-/

theorem getD_map_getLast? (l : List (InternalNeighbour α)) :
    ((l.getLast?).map InternalNeighbour.dist2).getD ⊤
      = (l.getLastD ⟨0, ⊤⟩).dist2 := by
  rw [List.getLastD_eq_getLast?]
  cases hg : l.getLast? with
  | none => rfl
  | some m => rfl

theorem bheap_addAll_length (k : Nat) (obs : List (α × Nat)) :
    (BHeap.addAll (BHeap.new_with_k (α := α) k) obs).elems.length
      = min k obs.length := by
  rw [bheap_addAll_elems, List.length_take, sortk_length, List.length_map]

theorem vec_add_furthest_le {v : List (InternalNeighbour α)}
    (hs : KSorted InternalNeighbour.dist2 v) (hv : v ≠ []) (d : α) (i : Nat) :
    VecCollector.furthest_dist2 (VecCollector.add v d i)
      ≤ VecCollector.furthest_dist2 v := by
  rw [vec_add_of_ne_nil hv]
  by_cases hLd : VecCollector.furthest_dist2 v < d
  · rw [if_pos hLd]
  · rw [if_neg hLd]
    set w := insk InternalNeighbour.dist2 ⟨i, d⟩ v.dropLast with hw
    have hwne : w ≠ [] := insk_ne_nil _ _ _
    have hlast : w.getLastD ⟨0, ⊤⟩ ∈ w := getLastD_mem hwne _
    rcases mem_insk.1 (hw ▸ hlast) with heq | hmem2
    · show (w.getLastD ⟨0, ⊤⟩).dist2 ≤ _
      rw [heq]
      exact not_lt.1 hLd
    · show (w.getLastD ⟨0, ⊤⟩).dist2 ≤ _
      exact le_getLastD_of_sorted hs (List.dropLast_subset v hmem2) _

theorem bheap_add_furthest_le {h : BHeap α}
    (hs : KSorted InternalNeighbour.dist2 h.elems)
    (hfull : ¬ h.elems.length < h.k) (d : α) (i : Nat) :
    BHeap.furthest_dist2 (BHeap.add h d i) ≤ BHeap.furthest_dist2 h := by
  unfold BHeap.add
  rw [if_neg hfull]
  cases hg : h.elems.getLast? with
  | none => exact le_refl _
  | some m =>
    by_cases hdm : d < m.dist2
    · simp only [hdm, if_true]
      have hne : h.elems ≠ [] := by
        intro hcon
        rw [hcon] at hg
        simp at hg
      have hfh : BHeap.furthest_dist2 h = m.dist2 := by
        unfold BHeap.furthest_dist2
        rw [if_neg hfull, hg]
        rfl
      rw [hfh]
      set w := insk InternalNeighbour.dist2 ⟨i, d⟩ h.elems.dropLast with hw
      have hwlen : w.length = h.elems.length := by
        rw [hw, insk_length, List.length_dropLast]
        have : h.elems.length ≠ 0 := fun hc => hne (List.length_eq_zero.1 hc)
        omega
      have hwfull : ¬ w.length < h.k := by
        rw [hwlen]
        exact hfull
      have hmd : h.elems.getLastD ⟨0, ⊤⟩ = m := by
        rw [List.getLastD_eq_getLast?, hg]
        rfl
      have hstep : BHeap.furthest_dist2 ⟨h.k, w⟩ = (w.getLastD ⟨0, ⊤⟩).dist2 := by
        unfold BHeap.furthest_dist2
        rw [if_neg hwfull, getD_map_getLast?]
      rw [hstep]
      have hlast : w.getLastD ⟨0, ⊤⟩ ∈ w := getLastD_mem (insk_ne_nil _ _ _) _
      rcases mem_insk.1 (hw ▸ hlast) with heq | hmem2
      · rw [heq]
        exact le_of_lt hdm
      · have := le_getLastD_of_sorted hs (List.dropLast_subset h.elems hmem2)
          (⟨0, ⊤⟩ : InternalNeighbour α)
        rw [hmd] at this
        exact this
    · simp only [hdm, if_false]
      exact le_refl _

/-!
## Single-best strategy lemmas
-/

theorem sb_add_dist (s : InternalNeighbour α) (d : α) (i : Nat) :
    (InternalNeighbour.add s d i).dist2 = min s.dist2 d := by
  unfold InternalNeighbour.add
  split
  · rename_i hlt
    exact (min_eq_right (le_of_lt hlt)).symm
  · rename_i hge
    exact (min_eq_left (not_lt.1 hge)).symm

theorem minD_cons (o : α × Nat) (obs : List (α × Nat)) :
    minD (o :: obs) = min o.1 (minD obs) := rfl

theorem sb_addAll_dist (obs : List (α × Nat)) :
    ∀ s : InternalNeighbour α,
      (InternalNeighbour.addAll s obs).dist2 = min s.dist2 (minD obs) := by
  induction obs with
  | nil =>
    intro s
    simp [InternalNeighbour.addAll, minD, min_eq_left (le_top (a := s.dist2))]
  | cons o rest ih =>
    intro s
    show (InternalNeighbour.addAll (InternalNeighbour.add s o.1 o.2) rest).dist2 = _
    rw [ih, sb_add_dist, minD_cons, min_assoc]

theorem sb_addAll_of_not_lt (obs : List (α × Nat)) :
    ∀ s : InternalNeighbour α, ¬ minD obs < s.dist2 →
      InternalNeighbour.addAll s obs = s := by
  induction obs with
  | nil => exact fun s _ => rfl
  | cons o rest ih =>
    intro s hns
    rw [minD_cons] at hns
    have h1 : s.dist2 ≤ o.1 := (not_lt.1 hns).trans (min_le_left _ _)
    have h2 : ¬ minD rest < s.dist2 :=
      not_lt.2 ((not_lt.1 hns).trans (min_le_right _ _))
    show InternalNeighbour.addAll (InternalNeighbour.add s o.1 o.2) rest = s
    have hadd : InternalNeighbour.add s o.1 o.2 = s := by
      unfold InternalNeighbour.add
      rw [if_neg (not_lt.2 h1)]
    rw [hadd]
    exact ih s h2

theorem sb_addAll_firstMin (obs : List (α × Nat)) :
    ∀ (s : InternalNeighbour α), minD obs < s.dist2 →
      ∀ o₀, obs.find? (fun o => o.1 = minD obs) = some o₀ →
        InternalNeighbour.addAll s obs = ⟨o₀.2, o₀.1⟩ := by
  induction obs with
  | nil =>
    intro s hlt o₀ hfind
    simp at hfind
  | cons o rest ih =>
    intro s hlt o₀ hfind
    by_cases hED : o.1 = minD (o :: rest)
    · rw [List.find?_cons_of_pos rest (decide_eq_true hED)] at hfind
      injection hfind with hfind
      rw [← hfind]
      show InternalNeighbour.addAll (InternalNeighbour.add s o.1 o.2) rest = _
      have hos : o.1 < s.dist2 := hED ▸ hlt
      have hadd : InternalNeighbour.add s o.1 o.2 = ⟨o.2, o.1⟩ := by
        unfold InternalNeighbour.add
        rw [if_pos hos]
      rw [hadd]
      apply sb_addAll_of_not_lt
      rw [minD_cons] at hED
      have : o.1 ≤ minD rest := by
        rcases le_total o.1 (minD rest) with h | h
        · exact h
        · rw [min_eq_right h] at hED
          exact le_of_eq hED
      exact not_lt.2 this
    · have hmr : minD rest < o.1 := by
        rw [minD_cons] at hED
        rcases le_total o.1 (minD rest) with h | h
        · exact absurd (min_eq_left h).symm hED
        · rcases lt_or_eq_of_le h with h' | h'
          · exact h'
          · exact absurd (h' ▸ (min_eq_right h).symm) hED
      have hmin : minD (o :: rest) = minD rest := by
        rw [minD_cons]
        exact min_eq_right (le_of_lt hmr)
      rw [List.find?_cons_of_neg rest (by simp [hED])] at hfind
      rw [hmin] at hfind hlt
      show InternalNeighbour.addAll (InternalNeighbour.add s o.1 o.2) rest = _
      have hsd : minD rest < (InternalNeighbour.add s o.1 o.2).dist2 := by
        rw [sb_add_dist]
        exact lt_min hlt hmr
      exact ih (InternalNeighbour.add s o.1 o.2) hsd o₀ hfind

theorem minD_le (obs : List (α × Nat)) : ∀ o ∈ obs, minD obs ≤ o.1 := by
  induction obs with
  | nil => intro o ho; simp at ho
  | cons o' rest ih =>
    intro o ho
    rcases List.mem_cons.1 ho with h | h
    · rw [h, minD_cons]
      exact min_le_left _ _
    · rw [minD_cons]
      exact (min_le_right _ _).trans (ih o h)

theorem minD_mem (obs : List (α × Nat)) :
    minD obs = ⊤ ∨ minD obs ∈ obs.map Prod.fst := by
  induction obs with
  | nil => exact Or.inl rfl
  | cons o rest ih =>
    rw [minD_cons]
    rcases min_choice o.1 (minD rest) with h | h
    · exact Or.inr (by rw [h]; simp)
    · rcases ih with h' | h'
      · exact Or.inl (h.trans h')
      · exact Or.inr (by rw [h]; simp [h'])

/-!
## Unbounded collector lemmas
-/

section Unbounded

variable [Zero α]

theorem unb_addAll_found (u : UnboundedCollector α) (obs : List (α × Nat)) :
    (UnboundedCollector.addAll u obs).found = u.found ++ obs.map Prod.snd := by
  induction obs generalizing u with
  | nil => simp [UnboundedCollector.addAll]
  | cons o rest ih =>
    show (UnboundedCollector.addAll (UnboundedCollector.add u o.1 o.2) rest).found = _
    rw [ih]
    simp [UnboundedCollector.add]

theorem unb_addAll_worst (u : UnboundedCollector α) (obs : List (α × Nat)) :
    (UnboundedCollector.addAll u obs).worst
      = (obs.map Prod.fst).foldl max u.worst := by
  induction obs generalizing u with
  | nil => rfl
  | cons o rest ih =>
    show (UnboundedCollector.addAll (UnboundedCollector.add u o.1 o.2) rest).worst = _
    rw [ih]
    rfl

theorem le_foldl_max (a : α) (ds : List α) : a ≤ ds.foldl max a := by
  induction ds generalizing a with
  | nil => exact le_refl a
  | cons d t ih => exact (le_max_left a d).trans (ih (max a d))

theorem mem_le_foldl_max (ds : List α) :
    ∀ a : α, ∀ d ∈ ds, d ≤ ds.foldl max a := by
  induction ds with
  | nil => intro a d hd; simp at hd
  | cons b t ih =>
    intro a d hd
    rcases List.mem_cons.1 hd with h | h
    · rw [h]
      exact (le_max_right a b).trans (le_foldl_max (max a b) t)
    · exact ih (max a b) d h

theorem foldl_max_mem (ds : List α) :
    ∀ a : α, ds.foldl max a = a ∨ ds.foldl max a ∈ ds := by
  induction ds with
  | nil => exact fun a => Or.inl rfl
  | cons b t ih =>
    intro a
    rcases ih (max a b) with h | h
    · rcases max_choice a b with h' | h'
      · exact Or.inl (by rw [List.foldl_cons, h, h'])
      · exact Or.inr (by rw [List.foldl_cons, h, h']; simp)
    · exact Or.inr (by simp [h])

end Unbounded

/-!
## Remaining helpers for the claim theorems
-/

theorem getLastD_append_replicate_top (A : List α) {m : Nat} (hm : 1 ≤ m)
    (c : α) : (A ++ List.replicate m (⊤ : α)).getLastD c = ⊤ := by
  have h : List.replicate m (⊤ : α) = List.replicate (m - 1) ⊤ ++ [⊤] := by
    nth_rewrite 1 [show m = (m - 1) + 1 by omega]
    rw [List.replicate_succ']
  rw [h, ← List.append_assoc, List.getLastD_concat]

theorem kSmallest_map_dist2 (k : Nat) (obs : List (α × Nat)) :
    (kSmallest (α := α) k obs).map InternalNeighbour.dist2
      = (sortk id (obs.map Prod.fst)).take k := by
  unfold kSmallest
  rw [List.map_take, map_sortk, List.map_map]
  rfl


/-!
## Lemmas about the nondeterministic heap model

`HeapAddR` leaves two things open that the program also leaves open:
which element among Ord-equal maxima is evicted, and the internal order
of the retained elements.  The lemmas here hold for every resolution of
both: the retained distances are always exactly the k smallest seen so
far, and when distances are pairwise distinct the retained elements
themselves are determined.
-/

theorem sortk_id_perm_congr {l₁ l₂ : List α} (hp : l₁.Perm l₂) :
    sortk (id : α → α) l₁ = sortk id l₂ := by
  haveI : IsAntisymm α (· ≤ ·) := ⟨fun a b h1 h2 => le_antisymm h1 h2⟩
  refine List.eq_of_perm_of_sorted (r := (· ≤ ·)) ?_ ?_ ?_
  · exact ((sortk_perm id l₁).trans hp).trans (sortk_perm id l₂).symm
  · exact sorted_sortk id l₁
  · exact sorted_sortk id l₂

/-- Two lists sorted by a key and permutations of each other are equal
when the keys are pairwise distinct. -/
theorem eq_of_perm_of_ksorted_nodup {β : Type} {κ : β → α} :
    ∀ {l₁ l₂ : List β}, l₁.Perm l₂ → KSorted κ l₁ → KSorted κ l₂ →
      (l₁.map κ).Nodup → l₁ = l₂ := by
  intro l₁
  induction l₁ with
  | nil =>
    intro l₂ hp _ _ _
    exact (hp.symm.eq_nil).symm
  | cons a t₁ ih =>
    intro l₂ hp h₁ h₂ hnd
    cases l₂ with
    | nil => exact absurd hp.eq_nil (by simp)
    | cons b t₂ =>
      obtain ⟨ha1, hs1⟩ := List.sorted_cons.1 h₁
      obtain ⟨hb2, hs2⟩ := List.sorted_cons.1 h₂
      by_cases hab : a = b
      · subst hab
        have hnd' : (t₁.map κ).Nodup := by
          rw [List.map_cons] at hnd
          exact (List.nodup_cons.1 hnd).2
        rw [ih hp.cons_inv hs1 hs2 hnd']
      · have hbmem : b ∈ a :: t₁ := hp.symm.subset (List.mem_cons_self b t₂)
        have hamem : a ∈ b :: t₂ := hp.subset (List.mem_cons_self a t₁)
        have hbt : b ∈ t₁ := by
          rcases List.mem_cons.1 hbmem with h | h
          · exact absurd h.symm hab
          · exact h
        have hat : a ∈ t₂ := by
          rcases List.mem_cons.1 hamem with h | h
          · exact absurd h hab
          · exact h
        have heq : κ a = κ b := le_antisymm (ha1 b hbt) (hb2 a hat)
        have hmem : κ a ∈ t₁.map κ := by
          rw [heq]
          exact List.mem_map_of_mem κ hbt
        rw [List.map_cons] at hnd
        exact absurd hmem (List.nodup_cons.1 hnd).1

theorem mem_append_of_mem_erase_middle {β : Type}
    {s₁ s₂ : List β} {m y : β} (hy : y ∈ s₁ ++ s₂) :
    y ∈ s₁ ++ m :: s₂ := by
  rcases List.mem_append.1 hy with h | h
  · exact List.mem_append.2 (Or.inl h)
  · exact List.mem_append.2 (Or.inr (List.mem_cons_of_mem m h))

/-- Distance-level invariant of every run of the nondeterministic heap
model: the retained distances, sorted, are the first k of the sorted
observed distances, and the heap size is `min k n`. -/
theorem heapRun_dists {k : Nat} {obs : List (α × Nat)}
    {s : List (InternalNeighbour α)} (hrun : HeapRunR k obs s) :
    sortk id (s.map InternalNeighbour.dist2)
        = (sortk id (obs.map Prod.fst)).take k
    ∧ s.length = min k obs.length := by
  induction hrun with
  | nil => simp [sortk]
  | step os o s s' hrun hadd ih =>
    obtain ⟨ihS, ihlen⟩ := ih
    have hSnlen : (sortk (id : α → α) (os.map Prod.fst)).length
        = os.length := by
      rw [sortk_length, List.length_map]
    have htgt : sortk (id : α → α) (((os ++ [o]).map Prod.fst))
        = insk id o.1 (sortk id (os.map Prod.fst)) := by
      rw [List.map_append, List.map_singleton, sortk_concat]
    rw [htgt, List.length_append, List.length_singleton]
    cases hadd with
    | push s s' o hlen hperm =>
      have hslen : s.length = os.length := by omega
      have hos : os.length < k := by omega
      have hmap : sortk (id : α → α) (s'.map InternalNeighbour.dist2)
          = insk id o.1 (sortk id (s.map InternalNeighbour.dist2)) := by
        rw [sortk_id_perm_congr (hperm.map InternalNeighbour.dist2)]
        rw [sortk_id_perm_congr
          ((List.perm_append_singleton _ _).symm.map InternalNeighbour.dist2)]
        rw [List.map_append, List.map_singleton, sortk_concat]
      constructor
      · rw [hmap, ihS, List.take_of_length_le (by omega)]
        rw [List.take_of_length_le (by rw [insk_length]; omega)]
      · rw [hperm.length_eq, List.length_cons]
        omega
    | replace s₁ s₂ s' m o hlen hmax hlt hperm =>
      have hslen : (s₁ ++ m :: s₂).length = k := by
        have h1 : (s₁ ++ m :: s₂).length ≤ k := by omega
        omega
      have hkn : k ≤ os.length := by omega
      have hk1 : 1 ≤ k := by
        have : 1 ≤ (s₁ ++ m :: s₂).length := by
          rw [List.length_append, List.length_cons]
          omega
        omega
      have hmidperm : ((s₁ ++ m :: s₂).map InternalNeighbour.dist2).Perm
          (m.dist2 :: ((s₁ ++ s₂).map InternalNeighbour.dist2)) := by
        have hmid : (s₁ ++ m :: s₂).Perm (m :: (s₁ ++ s₂)) := List.perm_middle
        have := hmid.map InternalNeighbour.dist2
        simpa using this
      have hTdec : sortk (id : α → α)
            ((s₁ ++ m :: s₂).map InternalNeighbour.dist2)
          = sortk id ((s₁ ++ s₂).map InternalNeighbour.dist2)
            ++ [m.dist2] := by
        rw [sortk_id_perm_congr hmidperm,
          sortk_id_perm_congr (List.perm_append_singleton _ _).symm,
          sortk_concat]
        apply insk_all_le
        intro v hv
        obtain ⟨y, hy, hyv⟩ := List.mem_map.1 (mem_sortk.1 hv)
        rw [← hyv]
        exact not_lt.2 (hmax y (mem_append_of_mem_erase_middle hy))
      have hT' : sortk (id : α → α)
            ((s₁ ++ s₂).map InternalNeighbour.dist2)
          = (sortk id
              ((s₁ ++ m :: s₂).map InternalNeighbour.dist2)).dropLast := by
        rw [hTdec, List.dropLast_concat]
      have hlast : (sortk (id : α → α)
            ((s₁ ++ m :: s₂).map InternalNeighbour.dist2)).getLastD o.1
          = m.dist2 := by
        rw [hTdec, List.getLastD_concat]
      have hmap : sortk (id : α → α) (s'.map InternalNeighbour.dist2)
          = insk id o.1 (sortk id
              ((s₁ ++ s₂).map InternalNeighbour.dist2)) := by
        rw [sortk_id_perm_congr (hperm.map InternalNeighbour.dist2)]
        rw [sortk_id_perm_congr
          ((List.perm_append_singleton _ _).symm.map InternalNeighbour.dist2)]
        rw [List.map_append, List.map_singleton, sortk_concat]
      have hstep := take_insk_of_lt (κ := (id : α → α))
        (A := (sortk id (os.map Prod.fst)).take k)
        (B := (sortk id (os.map Prod.fst)).drop k) (x := o.1)
        (by rw [List.take_append_drop]; exact sorted_sortk id _)
        (by
          intro hc
          have hl := congrArg List.length hc
          rw [List.length_take] at hl
          simp only [List.length_nil] at hl
          omega)
        (by
          rw [← ihS, hlast]
          exact hlt)
      rw [List.take_append_drop, List.length_take] at hstep
      have hminlen : min k (sortk (id : α → α) (os.map Prod.fst)).length
          = k := by omega
      rw [hminlen] at hstep
      constructor
      · rw [hmap, hT', ihS, hstep]
      · rw [hperm.length_eq, List.length_cons, List.length_append]
        have hx : (s₁ ++ m :: s₂).length = s₁.length + s₂.length + 1 := by
          rw [List.length_append, List.length_cons]
          omega
        omega
    | reject s m o hlen hm hmax hge =>
      have hslen : s.length = k := by
        have h1 : s.length ≤ k := by omega
        omega
      have hkn : k ≤ os.length := by omega
      have hsne : s ≠ [] := fun hc => by
        rw [hc] at hm
        simp at hm
      have hk1 : 1 ≤ k := by
        have hx := List.length_pos.2 hsne
        omega
      have hTne : sortk (id : α → α) (s.map InternalNeighbour.dist2) ≠ [] := by
        intro hc
        have := congrArg List.length hc
        rw [sortk_length, List.length_map, hslen] at this
        simp at this
        omega
      have hsorted : KSorted (id : α → α)
          (sortk id (s.map InternalNeighbour.dist2)) := sorted_sortk id _
      have hmemm : m.dist2 ∈ sortk (id : α → α)
          (s.map InternalNeighbour.dist2) :=
        mem_sortk.2 (List.mem_map_of_mem InternalNeighbour.dist2 hm)
      have hlast : (sortk (id : α → α)
            (s.map InternalNeighbour.dist2)).getLastD o.1 = m.dist2 := by
        refine le_antisymm ?_ ?_
        · obtain ⟨y, hy, hyv⟩ := List.mem_map.1
            (mem_sortk.1 (getLastD_mem hTne o.1))
          rw [← hyv]
          exact hmax y hy
        · exact le_getLastD_of_sorted hsorted hmemm o.1
      have hstep := take_insk_of_ge (κ := (id : α → α))
        (A := (sortk id (os.map Prod.fst)).take k)
        (B := (sortk id (os.map Prod.fst)).drop k) (x := o.1)
        (by rw [List.take_append_drop]; exact sorted_sortk id _)
        (by
          rw [← ihS, hlast]
          exact not_lt.1 hge)
      rw [List.take_append_drop, List.length_take] at hstep
      have hminlen : min k (sortk (id : α → α) (os.map Prod.fst)).length
          = k := by omega
      rw [hminlen] at hstep
      refine ⟨by rw [ihS, hstep], by omega⟩

/-- Pair-level invariant of every run of the nondeterministic heap
model, under pairwise distinct observed distances: the retained
elements are exactly (a permutation of) the k smallest observations. -/
theorem heapRun_pairs {k : Nat} {obs : List (α × Nat)}
    {s : List (InternalNeighbour α)} (hrun : HeapRunR k obs s)
    (hnd : (obs.map Prod.fst).Nodup) :
    s.Perm ((sortk InternalNeighbour.dist2
      (obs.map obsToNeighbour)).take k) := by
  induction hrun with
  | nil =>
    simp [sortk]
  | step os o s s' hrun hadd ih =>
    have hndsplit : (os.map Prod.fst).Nodup ∧ o.1 ∉ os.map Prod.fst := by
      rw [List.map_append, List.map_singleton] at hnd
      have hp := (List.perm_append_singleton o.1 (os.map Prod.fst)).nodup_iff
      rw [hp, List.nodup_cons] at hnd
      exact ⟨hnd.2, hnd.1⟩
    have ihp := ih hndsplit.1
    have hlen := (heapRun_dists hrun).2
    have hSPlen : (sortk InternalNeighbour.dist2
        (os.map obsToNeighbour)).length = os.length := by
      rw [sortk_length, List.length_map]
    have hsorted : KSorted InternalNeighbour.dist2
        (sortk InternalNeighbour.dist2 (os.map obsToNeighbour)) :=
      sorted_sortk _ _
    have hAnodup : (((sortk InternalNeighbour.dist2
        (os.map obsToNeighbour)).take k).map InternalNeighbour.dist2).Nodup := by
      rw [List.map_take, map_sortk, List.map_map]
      have hperm : (sortk (id : α → α)
          (os.map (InternalNeighbour.dist2 ∘ obsToNeighbour))).Perm
          (os.map Prod.fst) := sortk_perm id _
      exact (List.take_sublist k _).nodup (hperm.nodup_iff.2 hndsplit.1)
    have htgt : sortk InternalNeighbour.dist2
          ((os ++ [o]).map obsToNeighbour)
        = insk InternalNeighbour.dist2 ⟨o.2, o.1⟩
            (sortk InternalNeighbour.dist2 (os.map obsToNeighbour)) := by
      rw [List.map_append, List.map_singleton, sortk_concat]
      rfl
    rw [htgt]
    cases hadd with
    | push s s' o hlen2 hperm =>
      have hos : os.length < k := by omega
      have hA : (sortk InternalNeighbour.dist2
          (os.map obsToNeighbour)).take k
          = sortk InternalNeighbour.dist2 (os.map obsToNeighbour) :=
        List.take_of_length_le (by omega)
      rw [hA] at ihp
      have htake : (insk InternalNeighbour.dist2 ⟨o.2, o.1⟩
          (sortk InternalNeighbour.dist2 (os.map obsToNeighbour))).take k
          = insk InternalNeighbour.dist2 ⟨o.2, o.1⟩
              (sortk InternalNeighbour.dist2 (os.map obsToNeighbour)) :=
        List.take_of_length_le (by rw [insk_length]; omega)
      rw [htake]
      exact (hperm.trans (ihp.cons _)).trans (insk_perm _ _ _).symm
    | replace s₁ s₂ s' m o hlen2 hmax hlt hperm =>
      have hslen : (s₁ ++ m :: s₂).length = k := by
        have h1 : (s₁ ++ m :: s₂).length ≤ k := by omega
        omega
      have hkn : k ≤ os.length := by omega
      have hk1 : 1 ≤ k := by
        have : 1 ≤ (s₁ ++ m :: s₂).length := by
          rw [List.length_append, List.length_cons]
          omega
        omega
      have hAlen : ((sortk InternalNeighbour.dist2
          (os.map obsToNeighbour)).take k).length = k := by
        rw [List.length_take]
        omega
      have hAne : (sortk InternalNeighbour.dist2
          (os.map obsToNeighbour)).take k ≠ [] := by
        intro hc
        rw [hc] at hAlen
        simp at hAlen
        omega
      have hAsorted : KSorted InternalNeighbour.dist2
          ((sortk InternalNeighbour.dist2 (os.map obsToNeighbour)).take k) :=
        ksorted_take hsorted k
      have hmA : m ∈ (sortk InternalNeighbour.dist2
          (os.map obsToNeighbour)).take k :=
        ihp.subset (by simp)
      have hgA : ((sortk InternalNeighbour.dist2
            (os.map obsToNeighbour)).take k).getLastD ⟨o.2, o.1⟩
          ∈ (sortk InternalNeighbour.dist2 (os.map obsToNeighbour)).take k :=
        getLastD_mem hAne _
      have hkey : m.dist2 = (((sortk InternalNeighbour.dist2
            (os.map obsToNeighbour)).take k).getLastD ⟨o.2, o.1⟩).dist2 := by
        refine le_antisymm (le_getLastD_of_sorted hAsorted hmA _) ?_
        have := ihp.symm.subset hgA
        exact hmax _ this
      have hmlast : m = ((sortk InternalNeighbour.dist2
            (os.map obsToNeighbour)).take k).getLastD ⟨o.2, o.1⟩ :=
        List.inj_on_of_nodup_map hAnodup hmA hgA hkey
      have hAdec : ((sortk InternalNeighbour.dist2
            (os.map obsToNeighbour)).take k).Perm
          (m :: ((sortk InternalNeighbour.dist2
            (os.map obsToNeighbour)).take k).dropLast) := by
        conv_lhs => rw [← dropLast_append_getLastD hAne (⟨o.2, o.1⟩ :
          InternalNeighbour α)]
        rw [← hmlast]
        exact List.perm_append_singleton _ _
      have hrest : (s₁ ++ s₂).Perm ((sortk InternalNeighbour.dist2
          (os.map obsToNeighbour)).take k).dropLast := by
        have h1 : (m :: (s₁ ++ s₂)).Perm
            (m :: ((sortk InternalNeighbour.dist2
              (os.map obsToNeighbour)).take k).dropLast) :=
          (List.perm_middle.symm.trans ihp).trans hAdec
        exact h1.cons_inv
      have hstep := take_insk_of_lt (κ := InternalNeighbour.dist2)
        (A := (sortk InternalNeighbour.dist2 (os.map obsToNeighbour)).take k)
        (B := (sortk InternalNeighbour.dist2 (os.map obsToNeighbour)).drop k)
        (x := (⟨o.2, o.1⟩ : InternalNeighbour α))
        (by rw [List.take_append_drop]; exact hsorted)
        hAne
        (by rw [← hkey]; exact hlt)
      rw [List.take_append_drop, hAlen] at hstep
      rw [hstep]
      exact (hperm.trans (hrest.cons _)).trans (insk_perm _ _ _).symm
    | reject s m o hlen2 hm hmax hge =>
      have hslen : s.length = k := by
        have h1 : s.length ≤ k := by omega
        omega
      have hkn : k ≤ os.length := by omega
      have hAlen : ((sortk InternalNeighbour.dist2
          (os.map obsToNeighbour)).take k).length = k := by
        rw [List.length_take]
        omega
      have hsne : s ≠ [] := fun hc2 => by
        rw [hc2] at hm
        simp at hm
      have hk1 : 1 ≤ k := by
        have hx := List.length_pos.2 hsne
        omega
      have hAne : (sortk InternalNeighbour.dist2
          (os.map obsToNeighbour)).take k ≠ [] := by
        intro hc
        rw [hc] at hAlen
        simp at hAlen
        omega
      have hAsorted : KSorted InternalNeighbour.dist2
          ((sortk InternalNeighbour.dist2 (os.map obsToNeighbour)).take k) :=
        ksorted_take hsorted k
      have hmA : m ∈ (sortk InternalNeighbour.dist2
          (os.map obsToNeighbour)).take k :=
        ihp.subset hm
      have hgA : ((sortk InternalNeighbour.dist2
            (os.map obsToNeighbour)).take k).getLastD ⟨o.2, o.1⟩
          ∈ (sortk InternalNeighbour.dist2 (os.map obsToNeighbour)).take k :=
        getLastD_mem hAne _
      have hkey : m.dist2 = (((sortk InternalNeighbour.dist2
            (os.map obsToNeighbour)).take k).getLastD ⟨o.2, o.1⟩).dist2 := by
        refine le_antisymm (le_getLastD_of_sorted hAsorted hmA _) ?_
        exact hmax _ (ihp.symm.subset hgA)
      have hstep := take_insk_of_ge (κ := InternalNeighbour.dist2)
        (A := (sortk InternalNeighbour.dist2 (os.map obsToNeighbour)).take k)
        (B := (sortk InternalNeighbour.dist2 (os.map obsToNeighbour)).drop k)
        (x := (⟨o.2, o.1⟩ : InternalNeighbour α))
        (by rw [List.take_append_drop]; exact hsorted)
        (by rw [← hkey]; exact not_lt.1 hge)
      rw [List.take_append_drop, hAlen] at hstep
      rw [hstep]
      exact ihp

/-- The executable `BHeap` fold is one refinement of the
nondeterministic heap model: every trace of `BHeap.addAll` is a valid
`HeapRunR` run. -/
theorem bheap_addAll_refines (k : Nat) (hk : 1 ≤ k)
    (obs : List (α × Nat)) :
    HeapRunR k obs (BHeap.addAll (BHeap.new_with_k (α := α) k) obs).elems := by
  induction obs using List.reverseRecOn with
  | nil => exact HeapRunR.nil
  | append_singleton os o ih =>
    rw [bheap_addAll_concat]
    refine HeapRunR.step os o
      (BHeap.addAll (BHeap.new_with_k (α := α) k) os).elems _ ih ?_
    set st := BHeap.addAll (BHeap.new_with_k (α := α) k) os with hst
    have hkk : st.k = k := by
      rw [hst, bheap_addAll_k]
      rfl
    by_cases hlen : st.elems.length < st.k
    · have hadd : BHeap.add st o.1 o.2
          = ⟨st.k, insk InternalNeighbour.dist2 ⟨o.2, o.1⟩ st.elems⟩ := by
        unfold BHeap.add
        rw [if_pos hlen]
      rw [hadd]
      exact HeapAddR.push st.elems _ o (by rw [← hkk]; exact hlen)
        (insk_perm _ _ _)
    · have hsorted : KSorted InternalNeighbour.dist2 st.elems := by
        rw [hst, bheap_addAll_elems]
        exact ksorted_take (sorted_sortk _ _) k
      have hlenk : st.elems.length = k := by
        have h1 : st.elems.length ≤ k := by
          rw [hst, bheap_addAll_elems, List.length_take]
          omega
        rw [hkk] at hlen
        omega
      have hne : st.elems ≠ [] := by
        intro hc
        rw [hc] at hlenk
        simp at hlenk
        omega
      obtain ⟨m, hg⟩ : ∃ m, st.elems.getLast? = some m := by
        cases hgl : st.elems.getLast? with
        | none => exact absurd (List.getLast?_eq_none_iff.1 hgl) hne
        | some m => exact ⟨m, rfl⟩
      have hmD : ∀ c : InternalNeighbour α, st.elems.getLastD c = m := by
        intro c
        rw [List.getLastD_eq_getLast?, hg]
        rfl
      have hdecomp : st.elems.dropLast ++ [m] = st.elems := by
        conv_rhs => rw [← dropLast_append_getLastD hne
          (⟨0, ⊤⟩ : InternalNeighbour α)]
        rw [hmD]
      have hmax : ∀ y ∈ st.elems, y.dist2 ≤ m.dist2 := by
        intro y hy
        have := le_getLastD_of_sorted hsorted hy
          (⟨0, ⊤⟩ : InternalNeighbour α)
        rwa [hmD] at this
      by_cases hdm : o.1 < m.dist2
      · have houtput : (BHeap.add st o.1 o.2).elems
            = insk InternalNeighbour.dist2 ⟨o.2, o.1⟩ st.elems.dropLast := by
          unfold BHeap.add
          rw [if_neg hlen, hg]
          simp only [hdm, if_true]
        rw [houtput]
        have hrepl : HeapAddR k (st.elems.dropLast ++ m :: []) o
            (insk InternalNeighbour.dist2 ⟨o.2, o.1⟩ st.elems.dropLast) :=
          HeapAddR.replace st.elems.dropLast [] _ m o
            (by
              show ¬ (st.elems.dropLast ++ [m]).length < k
              rw [hdecomp, hlenk]
              omega)
            (by
              intro y hy
              refine hmax y ?_
              rw [← hdecomp]
              exact hy)
            hdm
            (by
              rw [List.append_nil]
              exact insk_perm _ _ _)
        rwa [hdecomp] at hrepl
      · have houtput : (BHeap.add st o.1 o.2).elems = st.elems := by
          unfold BHeap.add
          rw [if_neg hlen, hg]
          simp only [hdm, if_false]
        rw [houtput]
        exact HeapAddR.reject st.elems m o
          (by rw [hlenk]; omega)
          (by rw [← hmD (⟨0, ⊤⟩ : InternalNeighbour α)]; exact getLastD_mem hne _)
          hmax hdm

/-!
## The claim theorems
-/

/-- **C7** (counterexample): contrary to the claim, constructing a bounded
strategy with `k = 0` does not fail: both `new_with_k 0` calls return
ordinary empty collectors, and the failure only shows up later in the
query, when `add` (array and heap) and `furthest_dist2` (array) panic. -/
theorem C7_counterexample :
    VecCollector.new_with_k (α := ℕ∞) 0 = []
    ∧ BHeap.new_with_k (α := ℕ∞) 0 = ⟨0, []⟩
    ∧ VecCollector.add? ([] : List (InternalNeighbour ℕ∞)) 3 1 = none
    ∧ VecCollector.furthest_dist2? ([] : List (InternalNeighbour ℕ∞)) = none
    ∧ BHeap.add? (BHeap.new_with_k (α := ℕ∞) 0) 3 1 = none := by
  refine ⟨rfl, rfl, rfl, rfl, ?_⟩
  simp [BHeap.add?, BHeap.new_with_k]

/-- **C7** (amended): constructing a bounded strategy with `k = 0`
succeeds and yields an empty collector; the precondition failure is
deferred into the query: the `add` and `furthest_dist2` of the array
strategy panic (out-of-bounds index), the heap `add` panics (`unwrap`
of an empty `peek_mut`), and the heap `furthest_dist2` returns
infinity. -/
theorem C7_zero_capacity_deferred (d : α) (i : Nat) :
    VecCollector.new_with_k (α := α) 0 = []
    ∧ BHeap.new_with_k (α := α) 0 = ⟨0, []⟩
    ∧ VecCollector.add? ([] : List (InternalNeighbour α)) d i = none
    ∧ VecCollector.furthest_dist2? ([] : List (InternalNeighbour α)) = none
    ∧ BHeap.add? (BHeap.new_with_k (α := α) 0) d i = none
    ∧ BHeap.furthest_dist2 (BHeap.new_with_k (α := α) 0) = ⊤ := by
  refine ⟨rfl, rfl, rfl, rfl, ?_, ?_⟩
  · simp [BHeap.add?, BHeap.new_with_k]
  · simp [BHeap.furthest_dist2, BHeap.new_with_k]

/-- **C8**: constructing the single-best strategy with `k ≠ 1` is a
precondition failure surfaced at construction (the source has
`debug_assert_eq!(k, 1)`, modelled as the `none` branch), while `k = 1`
yields the infinite-distance sentinel. -/
theorem C8_single_best_capacity (k : Nat) (hk : k ≠ 1) :
    InternalNeighbour.new_with_k? (α := α) k = none
    ∧ InternalNeighbour.new_with_k? (α := α) 1 = some ⟨0, ⊤⟩ := by
  constructor
  · simp [InternalNeighbour.new_with_k?, hk]
  · simp [InternalNeighbour.new_with_k?]

/-- **C8** witness at `k = 2`. -/
theorem C8_single_best_capacity_witness :
    InternalNeighbour.new_with_k? (α := ℕ∞) 2 = none
    ∧ InternalNeighbour.new_with_k? (α := ℕ∞) 1 = some ⟨0, ⊤⟩ :=
  C8_single_best_capacity 2 (by decide)

/-- **C9**: query parameter adaptation is the pure conversion
`max_error_squared = (1 + epsilon)^2`, `max_radius_squared = max_radius^2`,
passing `allow_self_match` through unchanged, and for `epsilon ≥ 0` it
guarantees `max_error_squared ≥ 1` (floats modelled as exact rationals). -/
theorem C9_parameter_adaptation (p : Parameters) (he : 0 ≤ p.epsilon)
    (hr : 0 ≤ p.max_radius) :
    (internalParametersFrom p).max_error2 = (1 + p.epsilon) ^ 2
    ∧ (internalParametersFrom p).max_radius2 = p.max_radius ^ 2
    ∧ (internalParametersFrom p).allow_self_match = p.allow_self_match
    ∧ 1 ≤ (internalParametersFrom p).max_error2 := by
  refine ⟨?_, ?_, rfl, ?_⟩
  · show (p.epsilon + 1) * (p.epsilon + 1) = (1 + p.epsilon) ^ 2
    ring
  · show p.max_radius * p.max_radius = p.max_radius ^ 2
    ring
  · show (1 : ℚ) ≤ (p.epsilon + 1) * (p.epsilon + 1)
    nlinarith [sq_nonneg p.epsilon]

/-- **C9** witness at `epsilon = 1/2`, `max_radius = 2`. -/
theorem C9_parameter_adaptation_witness :
    (internalParametersFrom ⟨1/2, 2, true⟩).max_error2 = (1 + (1/2 : ℚ)) ^ 2
    ∧ (internalParametersFrom ⟨1/2, 2, true⟩).max_radius2 = (2 : ℚ) ^ 2
    ∧ (internalParametersFrom ⟨1/2, 2, true⟩).allow_self_match = true
    ∧ 1 ≤ (internalParametersFrom ⟨1/2, 2, true⟩).max_error2 :=
  C9_parameter_adaptation ⟨1/2, 2, true⟩ (by norm_num) (by norm_num)

/-- **C10**: the unbounded collector starts (and restarts after `clear`)
with a pruning bound of zero, not infinity; after any observation
sequence with nonnegative distances (squared distances are nonnegative)
the bound equals the maximum distance added; every add retains its
identifier unconditionally and externalisation yields the identifiers in
insertion order through the lookup owned by the index. -/
theorem C10_unbounded_collector [Zero α] (c : Nat) (f : Nat → Nat)
    (obs : List (α × Nat)) (u : UnboundedCollector α)
    (hnn : ∀ o ∈ obs, 0 ≤ o.1) (hne : obs ≠ []) :
    UnboundedCollector.furthest_dist2
        (UnboundedCollector.with_capacity (α := α) c) = 0
    ∧ UnboundedCollector.furthest_dist2 (UnboundedCollector.clear u) = 0
    ∧ (UnboundedCollector.clear u).found = []
    ∧ (UnboundedCollector.addAll
        (UnboundedCollector.with_capacity c) obs).found = obs.map Prod.snd
    ∧ UnboundedCollector.externalise f
        (UnboundedCollector.addAll (UnboundedCollector.with_capacity c) obs)
        = (obs.map Prod.snd).map f
    ∧ UnboundedCollector.furthest_dist2
        (UnboundedCollector.addAll (UnboundedCollector.with_capacity c) obs)
        ∈ obs.map Prod.fst
    ∧ ∀ d ∈ obs.map Prod.fst,
        d ≤ UnboundedCollector.furthest_dist2
          (UnboundedCollector.addAll (UnboundedCollector.with_capacity c) obs) := by
  have hfound : (UnboundedCollector.addAll
      (UnboundedCollector.with_capacity (α := α) c) obs).found
      = obs.map Prod.snd := by
    rw [unb_addAll_found]
    rfl
  have hworst : UnboundedCollector.furthest_dist2
      (UnboundedCollector.addAll (UnboundedCollector.with_capacity (α := α) c) obs)
      = (obs.map Prod.fst).foldl max 0 := by
    show (UnboundedCollector.addAll
        (UnboundedCollector.with_capacity (α := α) c) obs).worst = _
    rw [unb_addAll_worst]
    rfl
  refine ⟨rfl, rfl, rfl, hfound, ?_, ?_, ?_⟩
  · show (UnboundedCollector.addAll
        (UnboundedCollector.with_capacity (α := α) c) obs).found.map f = _
    rw [hfound]
  · rw [hworst]
    rcases foldl_max_mem (obs.map Prod.fst) 0 with h | h
    · -- the running maximum stayed at its zero initialisation
      obtain ⟨o₁, ho₁⟩ : ∃ o₁, o₁ ∈ obs := by
        cases obs with
        | nil => exact absurd rfl hne
        | cons a l => exact ⟨a, by simp⟩
      have h1 : o₁.1 ≤ (obs.map Prod.fst).foldl max 0 :=
        mem_le_foldl_max (obs.map Prod.fst) 0 o₁.1
          (List.mem_map_of_mem Prod.fst ho₁)
      have h2 : 0 ≤ o₁.1 := hnn o₁ ho₁
      have h3 : o₁.1 = (obs.map Prod.fst).foldl max 0 := by
        rw [h] at h1 ⊢
        exact le_antisymm h1 h2
      rw [← h3]
      exact List.mem_map_of_mem Prod.fst ho₁
    · exact h
  · rw [hworst]
    exact fun d hd => mem_le_foldl_max (obs.map Prod.fst) 0 d hd

/-- **C10** witness: two observations with nonnegative distances. -/
theorem C10_unbounded_collector_witness :
    UnboundedCollector.furthest_dist2
        (UnboundedCollector.with_capacity (α := ℕ∞) 4) = 0
    ∧ UnboundedCollector.furthest_dist2
        (UnboundedCollector.clear (⟨[9], 3⟩ : UnboundedCollector ℕ∞)) = 0
    ∧ (UnboundedCollector.clear (⟨[9], 3⟩ : UnboundedCollector ℕ∞)).found = []
    ∧ (UnboundedCollector.addAll (UnboundedCollector.with_capacity 4)
        [((3 : ℕ∞), 7), (1, 8)]).found = [(((3 : ℕ∞), 7)), (1, 8)].map Prod.snd
    ∧ UnboundedCollector.externalise Nat.succ
        (UnboundedCollector.addAll (UnboundedCollector.with_capacity 4)
          [((3 : ℕ∞), 7), (1, 8)])
        = ([(((3 : ℕ∞), 7)), (1, 8)].map Prod.snd).map Nat.succ
    ∧ UnboundedCollector.furthest_dist2
        (UnboundedCollector.addAll (UnboundedCollector.with_capacity 4)
          [((3 : ℕ∞), 7), (1, 8)])
        ∈ [(((3 : ℕ∞), 7)), (1, 8)].map Prod.fst
    ∧ ∀ d ∈ [(((3 : ℕ∞), 7)), (1, 8)].map Prod.fst,
        d ≤ UnboundedCollector.furthest_dist2
          (UnboundedCollector.addAll (UnboundedCollector.with_capacity 4)
            [((3 : ℕ∞), 7), (1, 8)]) :=
  C10_unbounded_collector 4 Nat.succ [((3 : ℕ∞), 7), (1, 8)] ⟨[9], 3⟩
    (by decide) (by decide)

/-- **C2** (counterexample): contrary to the claim, the fixed-array
strategy does not reject an observation whose distance merely equals the
last slot; with k = 1 and retained entry (index 1, distance 5), adding
(distance 5, index 2) overwrites the retained entry instead of leaving
the set unchanged. -/
theorem C2_counterexample :
    VecCollector.add [⟨1, (5 : ℕ∞)⟩] 5 2 = [⟨2, 5⟩]
    ∧ ([⟨2, 5⟩] : List (InternalNeighbour ℕ∞)) ≠ [⟨1, 5⟩] :=
  ⟨by decide, by decide⟩

/-- **C2** (amended): the single-best and heap strategies replace a
retained candidate only on strictly smaller distance and are unchanged
when the new distance is not strictly smaller; the fixed-array strategy
rejects an observation exactly when its distance is strictly greater
than the last slot, and on a distance equal to the last slot it
overwrites the last slot with the new identifier (last-seen wins the
boundary tie), leaving the list of retained distances unchanged. -/
theorem C2_strict_improvement (s : InternalNeighbour α) (d : α) (i : Nat)
    (hp : BHeap α) (v : List (InternalNeighbour α))
    (hs : KSorted InternalNeighbour.dist2 v) (hv : v ≠ [])
    (hsd : s.dist2 ≤ d)
    (hfullm : ¬ hp.elems.length < hp.k)
    (hm : ∀ m, hp.elems.getLast? = some m → m.dist2 ≤ d) :
    InternalNeighbour.add s d i = s
    ∧ BHeap.add hp d i = hp
    ∧ (VecCollector.furthest_dist2 v < d → VecCollector.add v d i = v)
    ∧ (d = VecCollector.furthest_dist2 v →
        VecCollector.add v d i = v.dropLast ++ [⟨i, d⟩]
        ∧ (VecCollector.add v d i).map InternalNeighbour.dist2
            = v.map InternalNeighbour.dist2) := by
  refine ⟨?_, ?_, ?_, ?_⟩
  · unfold InternalNeighbour.add
    rw [if_neg (not_lt.2 hsd)]
  · unfold BHeap.add
    rw [if_neg hfullm]
    cases hg : hp.elems.getLast? with
    | none => rfl
    | some m =>
      have hnl : ¬ d < m.dist2 := not_lt.2 (hm m hg)
      simp only [hnl, if_false]
  · intro hlt
    rw [vec_add_of_ne_nil hv, if_pos hlt]
  · intro htie
    have hmain : VecCollector.add v d i = v.dropLast ++ [⟨i, d⟩] := by
      rw [vec_add_of_ne_nil hv, if_neg (by rw [← htie]; exact lt_irrefl d)]
      apply insk_all_le
      intro y hy
      have hyv : y ∈ v := List.dropLast_subset v hy
      have hle := le_getLastD_of_sorted hs hyv (⟨0, ⊤⟩ : InternalNeighbour α)
      have hfeq : VecCollector.furthest_dist2 v
          = (v.getLastD ⟨0, ⊤⟩).dist2 := rfl
      rw [← hfeq, ← htie] at hle
      exact not_lt.2 hle
    refine ⟨hmain, ?_⟩
    rw [hmain, List.map_append, List.map_dropLast, List.map_singleton]
    have hne : v.map InternalNeighbour.dist2 ≠ [] := by
      intro hc
      exact hv (List.map_eq_nil.1 hc)
    have hlast : (v.map InternalNeighbour.dist2).getLastD ⊤ = d := by
      rw [← vec_furthest_eq_map, ← htie]
    conv_rhs => rw [← dropLast_append_getLastD hne (⊤ : α)]
    rw [hlast]

/-- **C2** witness: the theorem at a concrete boundary tie (k = 1,
retained distance 5, incoming distance 5). -/
theorem C2_strict_improvement_witness :
    InternalNeighbour.add (⟨1, (5 : ℕ∞)⟩ : InternalNeighbour ℕ∞) 5 2 = ⟨1, 5⟩
    ∧ BHeap.add (⟨1, [⟨1, (5 : ℕ∞)⟩]⟩ : BHeap ℕ∞) 5 2 = ⟨1, [⟨1, 5⟩]⟩
    ∧ (VecCollector.furthest_dist2 [⟨1, (5 : ℕ∞)⟩] < 5 →
        VecCollector.add [⟨1, (5 : ℕ∞)⟩] 5 2 = [⟨1, 5⟩])
    ∧ ((5 : ℕ∞) = VecCollector.furthest_dist2 [⟨1, (5 : ℕ∞)⟩] →
        VecCollector.add [⟨1, (5 : ℕ∞)⟩] 5 2
          = ([⟨1, (5 : ℕ∞)⟩] : List (InternalNeighbour ℕ∞)).dropLast ++ [⟨2, 5⟩]
        ∧ (VecCollector.add [⟨1, (5 : ℕ∞)⟩] 5 2).map InternalNeighbour.dist2
            = ([⟨1, (5 : ℕ∞)⟩] : List (InternalNeighbour ℕ∞)).map
                InternalNeighbour.dist2) :=
  C2_strict_improvement ⟨1, 5⟩ 5 2 ⟨1, [⟨1, 5⟩]⟩ [⟨1, 5⟩]
    (by simp [KSorted]) (by simp) (by decide) (by decide)
    (fun m hm => by
      simp at hm
      rw [← hm])

/-- **C3**: after any observation sequence on a bounded strategy with
k ≥ 1, the pruning bound is positive infinity while fewer than k
observations have arrived (array and heap), and one further `add` never
increases it: unconditionally for the array and the single-best holder,
and for the heap once it is full. -/
theorem C3_monotone_bound (k : Nat) (hk : 1 ≤ k) (obs : List (α × Nat))
    (d : α) (i : Nat) (s : InternalNeighbour α) :
    (obs.length < k →
      VecCollector.furthest_dist2
          (VecCollector.addAll (VecCollector.new_with_k k) obs) = ⊤
      ∧ BHeap.furthest_dist2 (BHeap.addAll (BHeap.new_with_k k) obs) = ⊤)
    ∧ VecCollector.furthest_dist2
        (VecCollector.add
          (VecCollector.addAll (VecCollector.new_with_k k) obs) d i)
      ≤ VecCollector.furthest_dist2
          (VecCollector.addAll (VecCollector.new_with_k k) obs)
    ∧ ((BHeap.addAll (BHeap.new_with_k k) obs).elems.length = k →
        BHeap.furthest_dist2
            (BHeap.add (BHeap.addAll (BHeap.new_with_k k) obs) d i)
          ≤ BHeap.furthest_dist2 (BHeap.addAll (BHeap.new_with_k k) obs))
    ∧ InternalNeighbour.furthest_dist2 (InternalNeighbour.add s d i)
        ≤ InternalNeighbour.furthest_dist2 s := by
  have hkk : (BHeap.addAll (BHeap.new_with_k (α := α) k) obs).k = k := by
    rw [bheap_addAll_k]
    rfl
  have hstlen : (VecCollector.addAll
      (VecCollector.new_with_k (α := α) k) obs).length = k := by
    have h := congrArg List.length (vec_addAll_dists k hk obs)
    rw [List.length_map, List.length_take, List.length_append,
      List.length_replicate] at h
    rw [h]
    omega
  have hsorted_st : KSorted InternalNeighbour.dist2
      (VecCollector.addAll (VecCollector.new_with_k (α := α) k) obs) := by
    rw [ksorted_iff_map, vec_addAll_dists k hk obs]
    exact ksorted_take (ksorted_top_pad (sorted_sortk id _) k) k
  have hstne : VecCollector.addAll
      (VecCollector.new_with_k (α := α) k) obs ≠ [] := by
    intro hc
    rw [hc] at hstlen
    simp at hstlen
    omega
  refine ⟨?_, ?_, ?_, ?_⟩
  · intro hlt
    constructor
    · rw [vec_furthest_eq_map, vec_addAll_dists k hk obs]
      have hSd : (sortk (id : α → α) (obs.map Prod.fst)).length
          = obs.length := by
        rw [sortk_length, List.length_map]
      rw [take_append_replicate (by omega),
        List.take_of_length_le (by omega)]
      exact getLastD_append_replicate_top _ (by omega) ⊤
    · unfold BHeap.furthest_dist2
      rw [if_pos (by rw [bheap_addAll_length, hkk]; omega)]
  · exact vec_add_furthest_le hsorted_st hstne d i
  · intro hfull
    apply bheap_add_furthest_le
    · rw [bheap_addAll_elems]
      exact ksorted_take (sorted_sortk _ _) k
    · rw [hfull, hkk]
      omega
  · show (InternalNeighbour.add s d i).dist2 ≤ s.dist2
    rw [sb_add_dist]
    exact min_le_left _ _

/-- **C3** witness at k = 2 with one observation (underfull) and concrete
further adds. -/
theorem C3_monotone_bound_witness :
    (([((3 : ℕ∞), 1)] : List (ℕ∞ × Nat)).length < 2 →
      VecCollector.furthest_dist2
          (VecCollector.addAll (VecCollector.new_with_k 2) [((3 : ℕ∞), 1)]) = ⊤
      ∧ BHeap.furthest_dist2
          (BHeap.addAll (BHeap.new_with_k 2) [((3 : ℕ∞), 1)]) = ⊤)
    ∧ VecCollector.furthest_dist2
        (VecCollector.add
          (VecCollector.addAll (VecCollector.new_with_k 2) [((3 : ℕ∞), 1)]) 7 4)
      ≤ VecCollector.furthest_dist2
          (VecCollector.addAll (VecCollector.new_with_k 2) [((3 : ℕ∞), 1)])
    ∧ ((BHeap.addAll (BHeap.new_with_k 2) [((3 : ℕ∞), 1)]).elems.length = 2 →
        BHeap.furthest_dist2
            (BHeap.add (BHeap.addAll (BHeap.new_with_k 2) [((3 : ℕ∞), 1)]) 7 4)
          ≤ BHeap.furthest_dist2
              (BHeap.addAll (BHeap.new_with_k 2) [((3 : ℕ∞), 1)]))
    ∧ InternalNeighbour.furthest_dist2
        (InternalNeighbour.add (⟨9, (6 : ℕ∞)⟩ : InternalNeighbour ℕ∞) 7 4)
      ≤ InternalNeighbour.furthest_dist2 (⟨9, (6 : ℕ∞)⟩ : InternalNeighbour ℕ∞) :=
  C3_monotone_bound 2 (by decide) [((3 : ℕ∞), 1)] 7 4 ⟨9, 6⟩

/-- **C4** (counterexample): contrary to the claim, when every
observation has infinite distance the single-best strategy keeps its
initial sentinel (identifier 0) rather than the first minimum-distance
observation (identifier 5). -/
theorem C4_counterexample :
    InternalNeighbour.addAll (⟨0, ⊤⟩ : InternalNeighbour ℕ∞) [(⊤, 5)] = ⟨0, ⊤⟩
    ∧ List.find? (fun o => o.1 = minD [((⊤ : ℕ∞), 5)]) [((⊤ : ℕ∞), 5)]
        = some (⊤, 5)
    ∧ (⟨0, ⊤⟩ : InternalNeighbour ℕ∞).index ≠ 5 :=
  ⟨by decide, by decide, by decide⟩

/-- **C4** (amended): for every observation sequence containing at least
one finite-distance observation, the single-best strategy ends holding
exactly the first observation that attains the minimum distance
(first-seen wins ties), and `furthest_dist2` returns the held
distance. -/
theorem C4_single_best (obs : List (α × Nat))
    (hfin : ∃ o ∈ obs, o.1 < ⊤) :
    ∃ o₀, obs.find? (fun o => o.1 = minD obs) = some o₀
      ∧ InternalNeighbour.addAll ⟨0, ⊤⟩ obs = ⟨o₀.2, o₀.1⟩
      ∧ InternalNeighbour.furthest_dist2
          (InternalNeighbour.addAll ⟨0, ⊤⟩ obs) = o₀.1 := by
  obtain ⟨o₁, ho₁, hfin₁⟩ := hfin
  have hmlt : minD obs < ⊤ := lt_of_le_of_lt (minD_le obs o₁ ho₁) hfin₁
  have hattain : ∃ x ∈ obs, (fun o => decide (o.1 = minD obs)) x = true := by
    rcases minD_mem obs with h | h
    · exact absurd h (by
        intro hc
        rw [hc] at hmlt
        exact lt_irrefl ⊤ hmlt)
    · obtain ⟨o₂, ho₂, heq⟩ := List.mem_map.1 h
      exact ⟨o₂, ho₂, decide_eq_true heq⟩
  have hsome : (obs.find? (fun o => o.1 = minD obs)).isSome = true :=
    List.find?_isSome.2 hattain
  obtain ⟨o₀, ho₀⟩ := Option.isSome_iff_exists.1 hsome
  refine ⟨o₀, ho₀, ?_, ?_⟩
  · exact sb_addAll_firstMin obs ⟨0, ⊤⟩ hmlt o₀ ho₀
  · rw [sb_addAll_firstMin obs ⟨0, ⊤⟩ hmlt o₀ ho₀]
    rfl

/-- **C4** witness: observations with a tie at the minimum distance. -/
theorem C4_single_best_witness :
    ∃ o₀, List.find? (fun o => o.1 = minD [((5 : ℕ∞), 1), (5, 2), (9, 3)])
        [((5 : ℕ∞), 1), (5, 2), (9, 3)] = some o₀
      ∧ InternalNeighbour.addAll ⟨0, ⊤⟩ [((5 : ℕ∞), 1), (5, 2), (9, 3)]
          = ⟨o₀.2, o₀.1⟩
      ∧ InternalNeighbour.furthest_dist2
          (InternalNeighbour.addAll ⟨0, ⊤⟩ [((5 : ℕ∞), 1), (5, 2), (9, 3)])
          = o₀.1 :=
  C4_single_best [((5 : ℕ∞), 1), (5, 2), (9, 3)]
    ⟨((5 : ℕ∞), 1), by decide, by decide⟩

/-- **C5**: fed fewer than k finite-distance observations, the k-bounded
array strategy extracts exactly the observed count, a permutation of the
observations (correct distances and identifiers), none of them with
infinite distance; and the extraction truncates at the first
infinite-distance slot, keeping everything before it. -/
theorem C5_sentinel_truncation (k : Nat) (obs : List (α × Nat))
    (hfin : ∀ o ∈ obs, o.1 < ⊤) (hlt : obs.length < k) :
    (VecCollector.into_sorted_vec
        (VecCollector.addAll (VecCollector.new_with_k k) obs)).length
      = obs.length
    ∧ (∀ e ∈ VecCollector.into_sorted_vec
        (VecCollector.addAll (VecCollector.new_with_k k) obs), e.dist2 < ⊤)
    ∧ (VecCollector.into_sorted_vec
        (VecCollector.addAll (VecCollector.new_with_k k) obs)).Perm
        (obs.map obsToNeighbour)
    ∧ keep_finite_elements
          (VecCollector.addAll (VecCollector.new_with_k k) obs)
        = (VecCollector.addAll (VecCollector.new_with_k k) obs).takeWhile
            (fun n => n.dist2 ≠ ⊤) := by
  have hSP_fin : ∀ e ∈ sortk InternalNeighbour.dist2 (obs.map obsToNeighbour),
      e.dist2 ≠ ⊤ := by
    intro e he
    obtain ⟨o', ho', heq⟩ := List.mem_map.1 (mem_sortk.1 he)
    rw [← heq]
    exact lt_top_iff_ne_top.1 (hfin o' ho')
  have hext : VecCollector.into_sorted_vec
      (VecCollector.addAll (VecCollector.new_with_k (α := α) k) obs)
      = sortk InternalNeighbour.dist2 (obs.map obsToNeighbour) := by
    show keep_finite_elements _ = _
    rw [vec_addAll_underfull k obs hfin hlt]
    exact keep_finite_append_replicate_top _ _ 0 hSP_fin
  refine ⟨?_, ?_, ?_, keep_finite_eq_takeWhile _⟩
  · rw [hext, sortk_length, List.length_map]
  · intro e he
    rw [hext] at he
    exact lt_top_iff_ne_top.2 (hSP_fin e he)
  · rw [hext]
    exact sortk_perm _ _

/-- **C5** witness: the example from the spec, k = 3 with the single
observation (distance 5, identifier 1). -/
theorem C5_sentinel_truncation_witness :
    (VecCollector.into_sorted_vec
        (VecCollector.addAll (VecCollector.new_with_k 3)
          [((5 : ℕ∞), 1)])).length = ([((5 : ℕ∞), 1)] : List (ℕ∞ × Nat)).length
    ∧ (∀ e ∈ VecCollector.into_sorted_vec
        (VecCollector.addAll (VecCollector.new_with_k 3) [((5 : ℕ∞), 1)]),
        e.dist2 < ⊤)
    ∧ (VecCollector.into_sorted_vec
        (VecCollector.addAll (VecCollector.new_with_k 3)
          [((5 : ℕ∞), 1)])).Perm (([((5 : ℕ∞), 1)]).map obsToNeighbour)
    ∧ keep_finite_elements
          (VecCollector.addAll (VecCollector.new_with_k 3) [((5 : ℕ∞), 1)])
        = (VecCollector.addAll (VecCollector.new_with_k 3)
            [((5 : ℕ∞), 1)]).takeWhile (fun n => n.dist2 ≠ ⊤) :=
  C5_sentinel_truncation 3 [((5 : ℕ∞), 1)] (by decide) (by decide)

/-- **C6**: the fixed-capacity array strategy starts as exactly k
sentinel slots of infinite distance and, for k ≥ 1, keeps exactly k
slots sorted ascending by distance after every sequence of add calls. -/
theorem C6_array_invariants (k : Nat) (hk : 1 ≤ k) (obs : List (α × Nat)) :
    VecCollector.new_with_k (α := α) k
        = List.replicate k (⟨0, ⊤⟩ : InternalNeighbour α)
    ∧ (VecCollector.addAll (VecCollector.new_with_k k) obs).length = k
    ∧ ((VecCollector.addAll (VecCollector.new_with_k k) obs).map
        InternalNeighbour.dist2).Sorted (· ≤ ·) := by
  refine ⟨rfl, ?_, ?_⟩
  · have h := congrArg List.length (vec_addAll_dists k hk obs)
    rw [List.length_map, List.length_take, List.length_append,
      List.length_replicate] at h
    rw [h]
    omega
  · rw [vec_addAll_dists k hk obs]
    exact ksorted_take (ksorted_top_pad (sorted_sortk id _) k) k

/-- **C6** witness at k = 2 with three observations including a tie. -/
theorem C6_array_invariants_witness :
    VecCollector.new_with_k (α := ℕ∞) 2
        = List.replicate 2 (⟨0, ⊤⟩ : InternalNeighbour ℕ∞)
    ∧ (VecCollector.addAll (VecCollector.new_with_k 2)
        [((5 : ℕ∞), 1), (3, 2), (5, 3)]).length = 2
    ∧ ((VecCollector.addAll (VecCollector.new_with_k 2)
        [((5 : ℕ∞), 1), (3, 2), (5, 3)]).map
        InternalNeighbour.dist2).Sorted (· ≤ ·) :=
  C6_array_invariants 2 (by decide) [((5 : ℕ∞), 1), (3, 2), (5, 3)]

/-- **C1** (counterexample): contrary to the claim, the two bounded
implementations do not always produce identical result sets: with k = 1
and the observations (5, id 1), (5, id 2), the array keeps the
last-seen identifier 2 while the heap keeps the first-seen identifier 1.
(At k = 1 the heap holds a single element, so the eviction choice among
tied maxima does not arise and the executable refinement coincides with
the program: the second observation is simply rejected by the strict
comparison at heap.rs:108.) -/
theorem C1_counterexample :
    VecCollector.into_sorted_vec (VecCollector.addAll
        (VecCollector.new_with_k (α := ℕ∞) 1) [(5, 1), (5, 2)])
      = [⟨2, 5⟩]
    ∧ BHeap.into_sorted_vec (BHeap.addAll
        (BHeap.new_with_k (α := ℕ∞) 1) [(5, 1), (5, 2)])
      = [⟨1, 5⟩]
    ∧ ([⟨2, 5⟩] : List (InternalNeighbour ℕ∞)) ≠ [⟨1, 5⟩] :=
  ⟨by decide, by decide, by decide⟩

/-- **C1** (amended): for 1 ≤ k ≤ number of observations, and for every
run of the heap strategy — `HeapRunR`, i.e. under every eviction choice
the program may make among Ord-equal maxima and every internal element
order: the heap retains exactly the k smallest distances, so its sorted
extraction carries exactly the sorted k smallest distances; with all
distances finite the array strategy extracts those same distances; and
when the distances are moreover pairwise distinct the heap retains
exactly the k smallest observations and both implementations produce
the identical sorted result.  When observations tie at the eviction
boundary, the identifier sets are not guaranteed to agree: the array
keeps the last-seen tied observation and the heap eviction choice among
tied maxima is unspecified. -/
theorem C1_topk_refinement (k : Nat) (obs : List (α × Nat))
    (hk : 1 ≤ k) (hkn : k ≤ obs.length)
    (s : List (InternalNeighbour α)) (hrun : HeapRunR k obs s) :
    sortk id (s.map InternalNeighbour.dist2)
        = (kSmallest k obs).map InternalNeighbour.dist2
    ∧ ((∀ o ∈ obs, o.1 < ⊤) →
        (VecCollector.into_sorted_vec (VecCollector.addAll
            (VecCollector.new_with_k k) obs)).map InternalNeighbour.dist2
          = (kSmallest k obs).map InternalNeighbour.dist2)
    ∧ ((obs.map Prod.fst).Nodup →
        sortk InternalNeighbour.dist2 s = kSmallest k obs)
    ∧ ((∀ o ∈ obs, o.1 < ⊤) → (obs.map Prod.fst).Nodup →
        VecCollector.into_sorted_vec (VecCollector.addAll
            (VecCollector.new_with_k k) obs)
          = sortk InternalNeighbour.dist2 s) := by
  have hvec_pair : (∀ o ∈ obs, o.1 < ⊤) → (obs.map Prod.fst).Nodup →
      VecCollector.into_sorted_vec (VecCollector.addAll
          (VecCollector.new_with_k (α := α) k) obs) = kSmallest k obs := by
    intro hfin hnd
    show keep_finite_elements _ = _
    rw [vec_addAll_pair k hk obs hfin hnd]
    have hSPlen : (sortk InternalNeighbour.dist2
        (obs.map obsToNeighbour)).length = obs.length := by
      rw [sortk_length, List.length_map]
    rw [List.take_append_of_le_length (by omega)]
    have hfin_t : ∀ e ∈ (sortk InternalNeighbour.dist2
        (obs.map obsToNeighbour)).take k, e.dist2 ≠ ⊤ := by
      intro e he
      obtain ⟨o', ho', heq⟩ := List.mem_map.1
        (mem_sortk.1 (List.take_subset k _ he))
      rw [← heq]
      exact lt_top_iff_ne_top.1 (hfin o' ho')
    rw [keep_finite_of_all_finite hfin_t]
    rfl
  have hc3 : (obs.map Prod.fst).Nodup →
      sortk InternalNeighbour.dist2 s = kSmallest k obs := by
    intro hnd
    have hp := heapRun_pairs hrun hnd
    have hAsorted : KSorted InternalNeighbour.dist2
        ((sortk InternalNeighbour.dist2 (obs.map obsToNeighbour)).take k) :=
      ksorted_take (sorted_sortk _ _) k
    have hAnodup : (((sortk InternalNeighbour.dist2
        (obs.map obsToNeighbour)).take k).map InternalNeighbour.dist2).Nodup := by
      rw [List.map_take, map_sortk, List.map_map]
      exact (List.take_sublist k _).nodup ((sortk_perm (id : α → α) _).nodup_iff.2 hnd)
    have hperm2 : (sortk InternalNeighbour.dist2 s).Perm
        ((sortk InternalNeighbour.dist2 (obs.map obsToNeighbour)).take k) :=
      (sortk_perm _ s).trans hp
    have hnd2 : ((sortk InternalNeighbour.dist2 s).map
        InternalNeighbour.dist2).Nodup :=
      (hperm2.map InternalNeighbour.dist2).nodup_iff.2 hAnodup
    exact eq_of_perm_of_ksorted_nodup hperm2 (sorted_sortk _ _) hAsorted hnd2
  refine ⟨?_, ?_, hc3, ?_⟩
  · rw [(heapRun_dists hrun).1, kSmallest_map_dist2]
  · intro hfin
    show (keep_finite_elements _).map InternalNeighbour.dist2 = _
    have hSdlen : (sortk (id : α → α) (obs.map Prod.fst)).length
        = obs.length := by
      rw [sortk_length, List.length_map]
    have hdist : (VecCollector.addAll
        (VecCollector.new_with_k (α := α) k) obs).map InternalNeighbour.dist2
        = (sortk id (obs.map Prod.fst)).take k := by
      rw [vec_addAll_dists k hk obs, List.take_append_of_le_length (by omega)]
    have hfin_st : ∀ e ∈ VecCollector.addAll
        (VecCollector.new_with_k (α := α) k) obs, e.dist2 ≠ ⊤ := by
      intro e he
      have hmem : e.dist2 ∈ (sortk (id : α → α) (obs.map Prod.fst)).take k := by
        rw [← hdist]
        exact List.mem_map_of_mem InternalNeighbour.dist2 he
      obtain ⟨o', ho', heq⟩ := List.mem_map.1
        (mem_sortk.1 (List.take_subset k _ hmem))
      rw [← heq]
      exact lt_top_iff_ne_top.1 (hfin o' ho')
    rw [keep_finite_of_all_finite hfin_st, hdist, kSmallest_map_dist2]
  · intro hfin hnd
    rw [hvec_pair hfin hnd, hc3 hnd]

/-- **C1** witness: k = 2 over five observations with pairwise distinct
finite distances (the end-to-end scenario of the spec), with the run
furnished by the executable refinement of the heap model. -/
theorem C1_topk_refinement_witness :
    sortk id ((BHeap.addAll (BHeap.new_with_k (α := ℕ∞) 2)
          [((9 : ℕ∞), 0), (1, 1), (25, 2), (4, 3), (16, 4)]).elems.map
          InternalNeighbour.dist2)
        = (kSmallest 2 [((9 : ℕ∞), 0), (1, 1), (25, 2), (4, 3), (16, 4)]).map
            InternalNeighbour.dist2
    ∧ ((∀ o ∈ [((9 : ℕ∞), 0), (1, 1), (25, 2), (4, 3), (16, 4)], o.1 < ⊤) →
        (VecCollector.into_sorted_vec (VecCollector.addAll
            (VecCollector.new_with_k 2)
            [((9 : ℕ∞), 0), (1, 1), (25, 2), (4, 3), (16, 4)])).map
            InternalNeighbour.dist2
          = (kSmallest 2
              [((9 : ℕ∞), 0), (1, 1), (25, 2), (4, 3), (16, 4)]).map
              InternalNeighbour.dist2)
    ∧ ((([((9 : ℕ∞), 0), (1, 1), (25, 2), (4, 3), (16, 4)]).map
            Prod.fst).Nodup →
        sortk InternalNeighbour.dist2
            (BHeap.addAll (BHeap.new_with_k (α := ℕ∞) 2)
              [((9 : ℕ∞), 0), (1, 1), (25, 2), (4, 3), (16, 4)]).elems
          = kSmallest 2 [((9 : ℕ∞), 0), (1, 1), (25, 2), (4, 3), (16, 4)])
    ∧ ((∀ o ∈ [((9 : ℕ∞), 0), (1, 1), (25, 2), (4, 3), (16, 4)], o.1 < ⊤) →
        (([((9 : ℕ∞), 0), (1, 1), (25, 2), (4, 3), (16, 4)]).map
            Prod.fst).Nodup →
        VecCollector.into_sorted_vec (VecCollector.addAll
            (VecCollector.new_with_k 2)
            [((9 : ℕ∞), 0), (1, 1), (25, 2), (4, 3), (16, 4)])
          = sortk InternalNeighbour.dist2
              (BHeap.addAll (BHeap.new_with_k (α := ℕ∞) 2)
                [((9 : ℕ∞), 0), (1, 1), (25, 2), (4, 3), (16, 4)]).elems) :=
  C1_topk_refinement 2 [((9 : ℕ∞), 0), (1, 1), (25, 2), (4, 3), (16, 4)]
    (by decide) (by decide) _
    (bheap_addAll_refines 2 (by decide)
      [((9 : ℕ∞), 0), (1, 1), (25, 2), (4, 3), (16, 4)])

end Nabo

